import Mathlib

/-!
Verification development for a reading-delivery bot: text segmentation and
chunking (`reading.py`), message rendering under a platform size limit, the
per-thread session state machine with scheduled and consensus-driven delivery
(`bot.py`).  Python strings are modelled as `List Char`; sets of user ids as
`Finset Nat`; the channel/send collaborator as an environment recording sent
message texts and handing out sequential message identifiers.
-/

/-- Python strings, modelled as lists of characters (one element per code point,
matching Python `len`). -/
abbrev Str := List Char

/-- Convert a Lean string literal to the `Str` model. -/
def str (s : String) : Str := s.data

/-- Characters matched by Python `str.split()` / `str.strip()` / regex `\s`
(the White_Space code points). -/
def isPySpace (c : Char) : Bool :=
  c = ' ' || c = '\t' || c = '\n' || c = '\r' || c = '\x0b' || c = '\x0c' ||
  c = '\x1c' || c = '\x1d' || c = '\x1e' || c = '\x1f' || c = '\x85' ||
  c = '\xa0' || c.val = 0x1680 || (0x2000 ≤ c.val && c.val ≤ 0x200a) ||
  c.val = 0x2028 || c.val = 0x2029 || c.val = 0x202f || c.val = 0x205f ||
  c.val = 0x3000

/-- Total number of characters in a list of strings. -/
def charSum (ls : List Str) : Nat := (ls.map List.length).sum

/-- Python `sep.join(xs)`. -/
def pyJoin (sep : Str) : List Str → Str
  | [] => []
  | [x] => x
  | x :: xs => x ++ sep ++ pyJoin sep xs

/-- Whether `pat` occurs as a contiguous substring. -/
def containsSub (pat : Str) : Str → Bool
  | [] => pat.isPrefixOf []
  | c :: rest => pat.isPrefixOf (c :: rest) || containsSub pat rest

/-- Worker for Python `s.split(sep)` (non-overlapping, left to right); the fuel
counts scan steps and `s.length + 1` always suffices. -/
def splitAux (sep : Str) : Nat → Str → Str → List Str
  | 0, cur, s => [cur.reverse ++ s]
  | _ + 1, cur, [] => [cur.reverse]
  | fuel + 1, cur, c :: rest =>
    if sep ≠ [] ∧ sep.isPrefixOf (c :: rest) then
      cur.reverse :: splitAux sep fuel [] ((c :: rest).drop sep.length)
    else
      splitAux sep fuel (c :: cur) rest

/-- Python `s.split(sep)` for a non-empty separator. -/
def pySplit (sep : Str) (s : Str) : List Str := splitAux sep (s.length + 1) [] s

/-- Worker for Python `s.replace(old, new)`; fuel counts scan steps, bounded by
`s.length`. -/
def pyReplaceAux (old new : Str) : Nat → Str → Str
  | 0, s => s
  | _ + 1, [] => []
  | fuel + 1, c :: rest =>
    if old ≠ [] ∧ old.isPrefixOf (c :: rest) then
      new ++ pyReplaceAux old new fuel ((c :: rest).drop old.length)
    else
      c :: pyReplaceAux old new fuel rest

/-- Python `s.replace(old, new)` for a non-empty pattern. -/
def pyReplace (old new : Str) (s : Str) : Str := pyReplaceAux old new s.length s

/-- Worker for Python `s.split()` with no argument: maximal runs of
non-whitespace, empty pieces dropped. -/
def pySplitWsAux : Nat → Str → List Str
  | 0, _ => []
  | _ + 1, [] => []
  | fuel + 1, c :: rest =>
    if isPySpace c then pySplitWsAux fuel rest
    else
      (c :: rest.takeWhile (fun d => !isPySpace d)) ::
        pySplitWsAux fuel (rest.dropWhile (fun d => !isPySpace d))

/-- Python `s.split()` (split on whitespace runs). -/
def pySplitWs (s : Str) : List Str := pySplitWsAux s.length s

/-- Python `s.rstrip()`. -/
def pyRstrip (s : Str) : Str := (s.reverse.dropWhile isPySpace).reverse

/-- Python `s.strip()`. -/
def pyStrip (s : Str) : Str := pyRstrip (s.dropWhile isPySpace)

/-- The line-boundary characters of Python `str.splitlines()`. -/
def pyIsLineBreak (c : Char) : Bool :=
  c = '\n' || c = '\r' || c = '\x0b' || c = '\x0c' || c = '\x1c' ||
  c = '\x1d' || c = '\x1e' || c = '\x85' || c.val = 0x2028 || c.val = 0x2029

/-- Worker for Python `s.splitlines()` (`\r\n` counts as a single boundary);
fuel counts scan steps and `s.length` always suffices. -/
def pySplitlinesAux : Nat → Str → Str → List Str
  | _, [], cur => if cur = [] then [] else [cur.reverse]
  | 0, s, cur => if cur.reverse ++ s = [] then [] else [cur.reverse ++ s]
  | fuel + 1, c :: rest, cur =>
    if c = '\r' && rest.head? == some '\n' then
      cur.reverse :: pySplitlinesAux fuel rest.tail []
    else if pyIsLineBreak c then
      cur.reverse :: pySplitlinesAux fuel rest []
    else pySplitlinesAux fuel rest (c :: cur)

/-- Python `s.splitlines()`. -/
def pySplitlines (s : Str) : List Str := pySplitlinesAux s.length s []

/-- Worker for the Python slicing idiom `[l[i:i+n] for i in range(0, len(l), n)]`;
fuel `l.length` suffices for any step `n ≥ 1`. -/
def chunksEveryAux {α : Type} (n : Nat) : Nat → List α → List (List α)
  | _, [] => []
  | 0, l => [l]
  | fuel + 1, a :: t => (a :: t).take n :: chunksEveryAux n fuel ((a :: t).drop n)

/-- The Python slicing idiom `[l[i:i+n] for i in range(0, len(l), n)]`. -/
def chunksEvery {α : Type} (n : Nat) (l : List α) : List (List α) :=
  chunksEveryAux n l.length l

/-- The blank-line separator `"\n\n"` used between paragraphs inside a chunk. -/
def nn : Str := ['\n', '\n']

/-! ## reading.py -/

/-- Per-thread reading state (`ChannelBookState` in `reading.py`).  The `time`
fields are hour-minute pairs; dates are opaque integers; message and user
identifiers are naturals. -/
structure ChannelBookState where
  chunks : List Str
  index : Int
  chunk_size : Int
  auto_post_time : Option (Nat × Nat) := none
  auto_active : Bool := false
  last_auto_post_date : Option Int := none
  latest_message_id : Option Nat := none
  joined_users : Finset Nat := ∅
  latest_reactors : Finset Nat := ∅
  completed : Bool := false
  deriving DecidableEq

/-- First statement of `split_into_paragraphs`: whitespace normalization
`" ".join(text.split())`. -/
def normalizeWs (text : Str) : Str := pyJoin [' '] (pySplitWs text)

/-- The candidate paragraph spans of the first pass of `split_into_paragraphs`
(split on sentence punctuation followed by a double space). -/
def firstPassParts (text : Str) : List Str :=
  pySplit nn
    (pyReplace (str "?  ") (str "?\n\n")
      (pyReplace (str "!  ") (str "!\n\n")
        (pyReplace (str ".  ") (str ".\n\n") (normalizeWs text))))

/-- The filtered first-pass paragraphs of `split_into_paragraphs`. -/
def firstPassParagraphs (text : Str) : List Str :=
  (firstPassParts text).filterMap fun part =>
    let part := pyStrip part
    if part ≠ [] ∧ 10 < part.length then some part else none

/-- The sentence-level spans of the fallback pass of `split_into_paragraphs`
(split on sentence terminators followed by a single space). -/
def sentenceSpans (text : Str) : List Str :=
  pySplit ['\n']
    (pyReplace (str "? ") (str "?\n")
      (pyReplace (str "! ") (str "!\n")
        (pyReplace (str ". ") (str ".\n") (normalizeWs text))))

/-- The filtered fallback paragraphs of `split_into_paragraphs`. -/
def sentenceParagraphs (text : Str) : List Str :=
  (sentenceSpans text).filterMap fun s =>
    if pyStrip s ≠ [] ∧ 10 < (pyStrip s).length then some (pyStrip s) else none

/-- `split_into_paragraphs` from `reading.py`: normalize whitespace, try the
paragraph-level split, and fall back to sentence-level splitting whenever that
yields at most one paragraph. -/
def split_into_paragraphs (text : Str) : List Str :=
  let paragraphs := firstPassParagraphs text
  if paragraphs.length ≤ 1 then sentenceParagraphs text else paragraphs

/-- `chunk_paragraphs` from `reading.py`: group paragraphs into runs of the
clamped size and join each run with a blank line. -/
def chunk_paragraphs (paragraphs : List Str) (chunk_size : Int) : List Str :=
  let normalized_size : Int := max 1 (min 50 chunk_size)
  (chunksEvery normalized_size.toNat paragraphs).map (pyJoin nn)

/-- `rebuild_chunks_from_existing` from `reading.py`. -/
def rebuild_chunks_from_existing (chunks : List Str) (new_chunk_size : Int) : List Str :=
  let all_paragraphs := pySplit nn (pyJoin nn chunks)
  chunk_paragraphs all_paragraphs new_chunk_size

/-! ## textwrap (the parts of `textwrap.wrap` exercised by `bot.py`:
`width=1900`, `break_long_words=True`, `break_on_hyphens=False`, with the
default tab expansion, whitespace replacement and whitespace dropping) -/

/-- Python `str.expandtabs(8)` (column resets on `\n` / `\r`). -/
def expandTabsAux : Str → Nat → Str
  | [], _ => []
  | c :: rest, col =>
    if c = '\t' then
      let pad := 8 - col % 8
      List.replicate pad ' ' ++ expandTabsAux rest (col + pad)
    else if c = '\n' || c = '\r' then c :: expandTabsAux rest 0
    else c :: expandTabsAux rest (col + 1)

/-- Python `str.expandtabs(8)`. -/
def expandTabs (s : Str) : Str := expandTabsAux s 0

/-- The `replace_whitespace` translation of `textwrap` (each of the six ASCII
whitespace characters becomes a space). -/
def replaceWhitespace (s : Str) : Str :=
  s.map fun c =>
    if c = '\t' || c = '\n' || c = '\x0b' || c = '\x0c' || c = '\r' then ' ' else c

/-- `textwrap.TextWrapper._munge_whitespace`. -/
def munge_whitespace (text : Str) : Str := replaceWhitespace (expandTabs text)

/-- Worker for `textwrap.TextWrapper._split` with `break_on_hyphens=False`:
split into maximal runs of whitespace / non-whitespace, dropping empties. -/
def splitRunsAux : Nat → Str → List Str
  | 0, _ => []
  | _ + 1, [] => []
  | fuel + 1, c :: rest =>
    (c :: rest.takeWhile (fun d => isPySpace d == isPySpace c)) ::
      splitRunsAux fuel (rest.dropWhile (fun d => isPySpace d == isPySpace c))

/-- `textwrap.TextWrapper._split` with `break_on_hyphens=False`. -/
def splitRuns (s : Str) : List Str := splitRunsAux s.length s

/-- The inner packing loop of `_wrap_chunks`: pop chunks while they fit in the
current line.  Returns the packed chunks, the resulting line length, and the
remaining chunks. -/
def greedyPack (width : Nat) : Nat → List Str → List Str × Nat × List Str
  | cur_len, [] => ([], cur_len, [])
  | cur_len, ch :: rest =>
    if cur_len + ch.length ≤ width then
      let g := greedyPack width (cur_len + ch.length) rest
      (ch :: g.1, g.2.1, g.2.2)
    else ([], cur_len, ch :: rest)

/-- `textwrap.TextWrapper._handle_long_word` with `break_long_words=True` and
`break_on_hyphens=False`: split the head chunk at the space left on the line. -/
def handle_long_word (width cur_len : Nat) (ch : Str) : Str × Str :=
  let space_left := if width < 1 then 1 else width - cur_len
  (ch.take space_left, ch.drop space_left)

/-- One iteration of the outer `while chunks` loop of `_wrap_chunks`
(`drop_whitespace=True`, no indents): optionally drop a leading whitespace
chunk, pack greedily, handle an over-long head chunk, drop a trailing
whitespace chunk, and emit the line if non-empty. -/
def wrapStep (width : Nat) (linesNonempty : Bool) (chunks0 : List Str) :
    Option Str × List Str :=
  let chunks :=
    match chunks0 with
    | ws :: rest => if linesNonempty ∧ pyStrip ws = [] then rest else chunks0
    | [] => chunks0
  let g := greedyPack width 0 chunks
  let packed :=
    match g.2.2 with
    | ch :: rest2 =>
      if width < ch.length then
        let hl := handle_long_word width g.2.1 ch
        (g.1 ++ [hl.1], hl.2 :: rest2)
      else (g.1, g.2.2)
    | [] => (g.1, ([] : List Str))
  let cur_line :=
    match packed.1.getLast? with
    | some lastp => if pyStrip lastp = [] then packed.1.dropLast else packed.1
    | none => packed.1
  (if cur_line = [] then none else some (pyJoin [] cur_line), packed.2)

/-- The outer loop of `_wrap_chunks`, driven by fuel; every iteration consumes
at least one character, so `charSum chunks + 1` fuel always suffices. -/
def wrapDriver (width : Nat) : Nat → Bool → List Str → List Str
  | 0, _, _ => []
  | _ + 1, _, [] => []
  | fuel + 1, linesNE, c :: rest =>
    match wrapStep width linesNE (c :: rest) with
    | (some line, rest2) => line :: wrapDriver width fuel true rest2
    | (none, rest2) => wrapDriver width fuel linesNE rest2

/-- `textwrap.wrap(text, width, break_long_words=True, break_on_hyphens=False)`. -/
def textwrap_wrap (width : Nat) (text : Str) : List Str :=
  let chunks := splitRuns (munge_whitespace text)
  wrapDriver width (charSum chunks + 1) false chunks

/-! ## bot.py: message rendering -/

/-- `DISCORD_MESSAGE_LIMIT` from `bot.py`. -/
def DISCORD_MESSAGE_LIMIT : Nat := 2000

/-- `CHUNK_WRAP_WIDTH` from `bot.py`. -/
def CHUNK_WRAP_WIDTH : Nat := 1900

/-- Python `str(n)` for a natural number. -/
def natStr (n : Nat) : Str := (Nat.repr n).data

/-- The local `header` helper of `format_chunk_messages`. -/
def format_header (index part : Nat) : List Str :=
  let suffix := if part = 0 then ([] : Str) else str " (continued " ++ natStr part ++ str ")"
  [str "> *chunk " ++ natStr (index + 1) ++ suffix ++ str "*", str ">"]

/-- Python `"\n".join(lines)`. -/
def joinNL (lines : List Str) : Str := pyJoin ['\n'] lines

/-- The blockquote prefix applied to each segment. -/
def quoteLine (segment : Str) : Str :=
  if segment ≠ [] then str "> " ++ segment else str "> "

/-- The local `split_line` helper of `format_chunk_messages`: wrap one raw line
at the soft width, falling back to a single empty segment. -/
def split_line (text : Str) : List Str :=
  if text = [] then [[]]
  else
    match textwrap_wrap CHUNK_WRAP_WIDTH text with
    | [] => [[]]
    | l :: ls => l :: ls

/-- The body of the `for segment in segments` loop of `format_chunk_messages`:
state is `(messages, part_index, current_lines)`. -/
def format_step (index : Nat) (st : List Str × Nat × List Str) (segment : Str) :
    List Str × Nat × List Str :=
  let quoted_line := quoteLine segment
  let candidate := joinNL (st.2.2 ++ [quoted_line])
  if DISCORD_MESSAGE_LIMIT < candidate.length then
    let messages := st.1 ++ [joinNL st.2.2]
    let part_index := st.2.1 + 1
    let current_lines := format_header index part_index
    let candidate1 := joinNL (current_lines ++ [quoted_line])
    if DISCORD_MESSAGE_LIMIT < candidate1.length then
      let fallback_width :=
        max 1 (DISCORD_MESSAGE_LIMIT - (joinNL (format_header index part_index)).length - 5)
      let sub_segments := chunksEvery fallback_width segment
      sub_segments.foldl
        (fun st2 sub =>
          let quoted_sub_line := quoteLine sub
          let candidate_sub := joinNL (st2.2.2 ++ [quoted_sub_line])
          if DISCORD_MESSAGE_LIMIT < candidate_sub.length then
            (st2.1 ++ [joinNL st2.2.2], st2.2.1 + 1,
              format_header index (st2.2.1 + 1) ++ [quoted_sub_line])
          else
            (st2.1, st2.2.1, st2.2.2 ++ [quoted_sub_line]))
        (messages, part_index, current_lines)
    else
      (messages, part_index, current_lines ++ [quoted_line])
  else
    (st.1, st.2.1, st.2.2 ++ [quoted_line])

/-- `format_chunk_messages` from `bot.py`: render a chunk as one or more
blockquote messages. -/
def format_chunk_messages (index : Nat) (chunk : Str) : List Str :=
  let segments0 := (pySplitlines chunk).foldl (fun segs raw_line => segs ++ split_line raw_line) []
  let segments := if segments0 = [] then [([] : Str)] else segments0
  let final := segments.foldl (format_step index) ([], 0, format_header index 0)
  final.1 ++ [joinNL final.2.2]

/-! ## bot.py: delivery engine and session operations

The channel/send collaborator is modelled by an environment that records every
sent message text and assigns sequential message identifiers; channel lookup is
assumed to succeed (transport failure is external to the session core). -/

/-- A session together with its delivery environment: the transcript of sent
messages and the next fresh message identifier. -/
structure Env where
  data : ChannelBookState
  sent : List Str := []
  nextId : Nat := 0
  deriving DecidableEq

/-- The `channel.send` collaborator: records the text and returns the sent
message's identifier. -/
def sendMsg (e : Env) (text : Str) : Env × Nat :=
  ({ e with sent := e.sent ++ [text], nextId := e.nextId + 1 }, e.nextId)

/-- `deliver_chunk` from `bot.py`: deliver a specific chunk without mutating
the index; out-of-range indices are a no-op returning `none`. -/
def deliver_chunk (e : Env) (chunk_index : Int) : Env × Option Nat :=
  if chunk_index < 0 ∨ (e.data.chunks.length : Int) ≤ chunk_index then (e, none)
  else
    let chunk := e.data.chunks.getD chunk_index.toNat []
    let formatted_messages := format_chunk_messages chunk_index.toNat chunk
    let sendAll := formatted_messages.foldl
      (fun (acc : Env × Option Nat) formatted_chunk =>
        let s := sendMsg acc.1 formatted_chunk
        (s.1, some s.2)) (e, none)
    match sendAll with
    | (e1, some mid) =>
      ({ e1 with data := { e1.data with latest_message_id := some mid, latest_reactors := ∅ } },
        some mid)
    | (e1, none) =>
      ({ e1 with data := { e1.data with latest_message_id := none, latest_reactors := ∅ } },
        none)

/-- `send_next_chunk` from `bot.py`: deliver the next chunk, advancing
progress; emits the exhaustion notice and marks completion when past the end. -/
def send_next_chunk (e : Env) : Env × Option Nat :=
  if e.data.completed then (e, none)
  else if (e.data.chunks.length : Int) ≤ e.data.index then
    let e1 := { e with data := { e.data with
      completed := true, latest_message_id := none, latest_reactors := ∅ } }
    ((sendMsg e1 (str "🎉 All chunks sent!")).1, none)
  else
    let d := deliver_chunk e e.data.index
    let e1 := d.1
    let newIndex := e1.data.index + 1
    ({ e1 with data := { e1.data with
        index := newIndex,
        completed := decide ((e1.data.chunks.length : Int) ≤ newIndex) } },
      d.2)

/-- The loop body of `send_chunk_batch`: run `send_next_chunk` up to the given
number of times, stopping at the first `none`. -/
def send_chunk_batch_go : Env → Nat → Nat → Env × Nat
  | e, 0, sent => (e, sent)
  | e, n + 1, sent =>
    let r := send_next_chunk e
    match r.2 with
    | none => (r.1, sent)
    | some _ => send_chunk_batch_go r.1 n (sent + 1)

/-- `send_chunk_batch` from `bot.py`: returns the updated environment and the
number of chunks actually sent; a non-positive batch size is a no-op. -/
def send_chunk_batch (e : Env) (batch_size : Int) : Env × Nat :=
  send_chunk_batch_go e batch_size.toNat 0

/-- The state built by `create_reading_thread` for freshly loaded content. -/
def create_reading_state (content : Str) (default_chunk_size : Int := 3) : ChannelBookState :=
  { chunks := chunk_paragraphs (split_into_paragraphs content) default_chunk_size,
    index := 0,
    chunk_size := default_chunk_size }

/-- The session command `setchunksize` (`setChunkSize` in `bot.py`): clamp the
requested size, rebuild the chunks, and clip the index. -/
def setChunkSize (e : Env) (size : Int) : Env :=
  let data := e.data
  let normalized_size : Int := max 1 (min 50 size)
  let chunks := rebuild_chunks_from_existing data.chunks normalized_size
  let previous_index := data.index
  let newIndex := min previous_index (chunks.length : Int)
  { e with data := { data with
      chunk_size := normalized_size,
      chunks := chunks,
      index := newIndex,
      completed := decide ((chunks.length : Int) ≤ newIndex) } }

/-- Modelled from the spec: the `HH:MM` 24-hour parse performed by
`datetime.strptime(time, "%H:%M")` in `set_time`, whose stdlib internals are
not part of this repository.  Accepts one or two digits for each field, a
single `:` separator, and in-range hour and minute values. -/
def parseHHMM (s : Str) : Option (Nat × Nat) :=
  match pySplit [':'] s with
  | [hs, ms] =>
    if hs ≠ [] ∧ hs.length ≤ 2 ∧ hs.all Char.isDigit ∧
        ms ≠ [] ∧ ms.length ≤ 2 ∧ ms.all Char.isDigit then
      let H := hs.foldl (fun a c => a * 10 + (c.toNat - '0'.toNat)) 0
      let M := ms.foldl (fun a c => a * 10 + (c.toNat - '0'.toNat)) 0
      if H ≤ 23 ∧ M ≤ 59 then some (H, M) else none
    else none
  | _ => none

/-- The session command `settime` (`set_time` in `bot.py`); the current wall
clock is passed as a date and an hour-minute pair.  A scheduled time of
`(H, M)` has already elapsed today exactly when `(H, M) ≤ (hour, minute)`
lexicographically. -/
def set_time (e : Env) (time : Str) (nowDate : Int) (nowHour nowMinute : Nat) : Env :=
  match parseHHMM time with
  | none => e
  | some (H, M) =>
    let d1 := { e.data with auto_post_time := some (H, M) }
    if d1.auto_active then
      if H < nowHour ∨ (H = nowHour ∧ M ≤ nowMinute) then
        { e with data := { d1 with last_auto_post_date := some nowDate } }
      else
        { e with data := { d1 with last_auto_post_date := none } }
    else
      { e with data := d1 }

/-- The session command `start` from `bot.py`. -/
def start (e : Env) (nowDate : Int) (nowHour nowMinute : Nat) : Env :=
  let d1 := { e.data with auto_active := true }
  match d1.auto_post_time with
  | none =>
    { e with data := { d1 with
        auto_post_time := some (nowHour, nowMinute),
        last_auto_post_date := some nowDate } }
  | some (H, M) =>
    if H < nowHour ∨ (H = nowHour ∧ M ≤ nowMinute) then
      { e with data := { d1 with last_auto_post_date := some nowDate } }
    else
      { e with data := { d1 with last_auto_post_date := none } }

/-- The session command `join` (`join_command` in `bot.py`). -/
def join_command (e : Env) (user_id : Nat) : Env :=
  if user_id ∈ e.data.joined_users then e
  else
    { e with data := { e.data with
        joined_users := insert user_id e.data.joined_users,
        latest_reactors := e.data.latest_reactors.erase user_id } }

/-- The session command `jump` (`jump_command` in `bot.py`). -/
def jump_command (e : Env) (chunk : Int) : Env :=
  let total_chunks : Int := e.data.chunks.length
  if total_chunks = 0 then e
  else if chunk < 1 ∨ total_chunks < chunk then e
  else
    let d1 := { e.data with index := max 0 (chunk - 1), completed := false }
    let del := deliver_chunk { e with data := d1 } (max 0 (chunk - 1))
    match del.2 with
    | none => del.1
    | some _ =>
      { del.1 with data := { del.1.data with
          index := chunk,
          completed := decide (total_chunks ≤ chunk) } }

/-- The session command `again` (`again_command` in `bot.py`). -/
def again_command (e : Env) : Env :=
  if e.data.chunks = [] ∨ e.data.index = 0 then e
  else
    let last_chunk_index := min e.data.index (e.data.chunks.length : Int) - 1
    (deliver_chunk e last_chunk_index).1

/-- The session command `more` from `bot.py`. -/
def more (e : Env) : Env :=
  (send_chunk_batch e e.data.chunk_size).1

/-- One evaluation of `check_scheduled_posts` for a single session at the given
wall-clock date, hour and minute (channel lookup assumed to succeed). -/
def check_scheduled_posts (e : Env) (current_date : Int) (current_hour current_minute : Nat) :
    Env :=
  if !e.data.auto_active ∨ e.data.auto_post_time = none ∨ e.data.completed ∨
      e.data.last_auto_post_date = some current_date then e
  else
    match e.data.auto_post_time with
    | none => e
    | some (H, M) =>
      if H = current_hour ∧ M = current_minute then
        let e1 := (send_next_chunk e).1
        { e1 with data := { e1.data with last_auto_post_date := some current_date } }
      else e

/-- The guard cascade of `on_raw_reaction_add`: the event is ignored for the
bot's own reaction, a bot member's reaction, a completed session, a stale
message id, or a non-joined user. -/
def reaction_accepted (e : Env) (user_id message_id : Nat) (isBot isSelf : Bool) : Bool :=
  !isSelf && !isBot && !e.data.completed &&
    (e.data.latest_message_id == some message_id) &&
    decide (user_id ∈ e.data.joined_users)

/-- The state reached by `on_raw_reaction_add` after the reactor-recording
step, before any consensus-triggered delivery. -/
def reaction_after_add (e : Env) (user_id message_id : Nat) (isBot isSelf : Bool) : Env :=
  if reaction_accepted e user_id message_id isBot isSelf then
    { e with data := { e.data with
        latest_reactors := insert user_id e.data.latest_reactors } }
  else e

/-- `on_raw_reaction_add` from `bot.py`; the Boolean reports whether the
consensus batch delivery was triggered. -/
def on_raw_reaction_add (e : Env) (user_id message_id : Nat) (isBot isSelf : Bool) :
    Env × Bool :=
  if reaction_accepted e user_id message_id isBot isSelf then
    let e1 := reaction_after_add e user_id message_id isBot isSelf
    if e1.data.joined_users.Nonempty ∧ e1.data.joined_users ⊆ e1.data.latest_reactors then
      ((send_chunk_batch e1 e1.data.chunk_size).1, true)
    else (e1, false)
  else (e, false)

/-! ## the session state machine -/

/-- The operations that can mutate a session after it is created. -/
inductive Op where
  | opSetChunkSize (size : Int)
  | opSetTime (time : Str) (nowDate : Int) (nowHour nowMinute : Nat)
  | opStart (nowDate : Int) (nowHour nowMinute : Nat)
  | opJoin (user_id : Nat)
  | opJump (chunk : Int)
  | opAgain
  | opMore
  | opTick (current_date : Int) (current_hour current_minute : Nat)
  | opReaction (user_id message_id : Nat) (isBot isSelf : Bool)
  | opAdvance
  | opAdvanceBatch (n : Int)

/-- Apply one operation to a session environment. -/
def applyOp : Op → Env → Env
  | Op.opSetChunkSize size, e => setChunkSize e size
  | Op.opSetTime time d h m, e => set_time e time d h m
  | Op.opStart d h m, e => start e d h m
  | Op.opJoin uid, e => join_command e uid
  | Op.opJump chunk, e => jump_command e chunk
  | Op.opAgain, e => again_command e
  | Op.opMore, e => more e
  | Op.opTick d h m, e => check_scheduled_posts e d h m
  | Op.opReaction uid mid b s, e => (on_raw_reaction_add e uid mid b s).1
  | Op.opAdvance, e => (send_next_chunk e).1
  | Op.opAdvanceBatch n, e => (send_chunk_batch e n).1

/-- The environment of a freshly created reading thread. -/
def initEnv (content : Str) : Env :=
  { data := create_reading_state content }

/-- Session environments reachable from a freshly loaded session by the
program's operations. -/
inductive Reach : Env → Prop
  | init (content : Str) : Reach (initEnv content)
  | step (op : Op) {e : Env} : Reach e → Reach (applyOp op e)

/-! ## basic lemmas -/

lemma int_one_le_clamp_toNat (k : Int) : 1 ≤ (max 1 (min 50 k)).toNat := by
  have h : (1 : Int) ≤ max 1 (min 50 k) := le_max_left _ _
  omega

lemma chunksEvery_singleton {α : Type} (n : Nat) (x : α) (h : 1 ≤ n) :
    chunksEvery n [x] = [[x]] := by
  obtain ⟨m, rfl⟩ : ∃ m, n = m + 1 := ⟨n - 1, by omega⟩
  simp [chunksEvery, chunksEveryAux]

lemma chunk_paragraphs_single_empty (k : Int) : chunk_paragraphs [[]] k = [[]] := by
  show List.map (pyJoin nn) (chunksEvery (max 1 (min 50 k)).toNat [[]]) = [[]]
  rw [chunksEvery_singleton _ _ (int_one_le_clamp_toNat k)]
  rfl

/-! ## lemmas about the delivery engine -/

lemma send_fold_eq (msgs : List Str) (e : Env) (a : Option Nat) :
    msgs.foldl (fun (acc : Env × Option Nat) formatted_chunk =>
        let s := sendMsg acc.1 formatted_chunk
        (s.1, some s.2)) (e, a)
      = ({ e with sent := e.sent ++ msgs, nextId := e.nextId + msgs.length },
         if msgs.isEmpty then a else some (e.nextId + msgs.length - 1)) := by
  induction msgs generalizing e a with
  | nil => simp
  | cons m rest ih =>
    simp only [List.foldl_cons, List.isEmpty_cons]
    rw [ih]
    simp only [Prod.mk.injEq]
    constructor
    · simp only [sendMsg, List.append_assoc, List.singleton_append, List.length_cons]
      congr 1
      omega
    · rcases rest with _ | ⟨r, rs⟩
      · simp [sendMsg]
      · simp only [List.isEmpty_cons, sendMsg, List.length_cons, if_neg Bool.false_ne_true]
        congr 2
        omega

lemma format_chunk_messages_ne_nil (index : Nat) (chunk : Str) :
    format_chunk_messages index chunk ≠ [] := by
  unfold format_chunk_messages
  intro h
  exact absurd (congrArg List.length h) (by simp)

lemma deliver_chunk_out_of_range (e : Env) (i : Int)
    (h : i < 0 ∨ (e.data.chunks.length : Int) ≤ i) : deliver_chunk e i = (e, none) := by
  unfold deliver_chunk
  simp [h]

lemma deliver_chunk_in_range (e : Env) (i : Int)
    (h0 : 0 ≤ i) (h1 : i < (e.data.chunks.length : Int)) :
    deliver_chunk e i =
      ({ e with
          data := { e.data with
            latest_message_id :=
              some (e.nextId +
                (format_chunk_messages i.toNat (e.data.chunks.getD i.toNat [])).length - 1),
            latest_reactors := ∅ },
          sent := e.sent ++ format_chunk_messages i.toNat (e.data.chunks.getD i.toNat []),
          nextId := e.nextId +
            (format_chunk_messages i.toNat (e.data.chunks.getD i.toNat [])).length },
        some (e.nextId +
          (format_chunk_messages i.toNat (e.data.chunks.getD i.toNat [])).length - 1)) := by
  unfold deliver_chunk
  rw [if_neg (by omega)]
  simp only [send_fold_eq]
  rw [if_neg (by simpa using format_chunk_messages_ne_nil i.toNat (e.data.chunks.getD i.toNat []))]

lemma deliver_chunk_frame (e : Env) (i : Int) :
    (deliver_chunk e i).1.data.index = e.data.index ∧
    (deliver_chunk e i).1.data.chunks = e.data.chunks ∧
    (deliver_chunk e i).1.data.chunk_size = e.data.chunk_size ∧
    (deliver_chunk e i).1.data.auto_post_time = e.data.auto_post_time ∧
    (deliver_chunk e i).1.data.auto_active = e.data.auto_active ∧
    (deliver_chunk e i).1.data.last_auto_post_date = e.data.last_auto_post_date ∧
    (deliver_chunk e i).1.data.joined_users = e.data.joined_users ∧
    (deliver_chunk e i).1.data.completed = e.data.completed := by
  by_cases h : i < 0 ∨ (e.data.chunks.length : Int) ≤ i
  · rw [deliver_chunk_out_of_range e i h]
    exact ⟨rfl, rfl, rfl, rfl, rfl, rfl, rfl, rfl⟩
  · rw [deliver_chunk_in_range e i (by omega) (by omega)]
    exact ⟨rfl, rfl, rfl, rfl, rfl, rfl, rfl, rfl⟩

lemma deliver_chunk_reactors (e : Env) (i : Int) :
    (deliver_chunk e i).1.data.latest_reactors = e.data.latest_reactors ∨
    (deliver_chunk e i).1.data.latest_reactors = ∅ := by
  by_cases h : i < 0 ∨ (e.data.chunks.length : Int) ≤ i
  · rw [deliver_chunk_out_of_range e i h]; exact Or.inl rfl
  · rw [deliver_chunk_in_range e i (by omega) (by omega)]; exact Or.inr rfl

lemma deliver_chunk_some_reactors (e : Env) (i : Int) (mid : Nat)
    (h : (deliver_chunk e i).2 = some mid) :
    (deliver_chunk e i).1.data.latest_reactors = ∅ := by
  by_cases hr : i < 0 ∨ (e.data.chunks.length : Int) ≤ i
  · rw [deliver_chunk_out_of_range e i hr] at h; exact absurd h (by simp)
  · rw [deliver_chunk_in_range e i (by omega) (by omega)]

/-- The per-session index invariant of the data model:
`0 ≤ index ≤ len(chunks)`. -/
def SessionInv (e : Env) : Prop :=
  0 ≤ e.data.index ∧ e.data.index ≤ (e.data.chunks.length : Int)

lemma send_next_chunk_frame (e : Env) :
    (send_next_chunk e).1.data.chunks = e.data.chunks ∧
    (send_next_chunk e).1.data.chunk_size = e.data.chunk_size ∧
    (send_next_chunk e).1.data.auto_post_time = e.data.auto_post_time ∧
    (send_next_chunk e).1.data.auto_active = e.data.auto_active ∧
    (send_next_chunk e).1.data.last_auto_post_date = e.data.last_auto_post_date ∧
    (send_next_chunk e).1.data.joined_users = e.data.joined_users := by
  unfold send_next_chunk
  by_cases h1 : e.data.completed = true
  · simp [h1]
  · by_cases h2 : (e.data.chunks.length : Int) ≤ e.data.index
    · simp [h1, h2, sendMsg]
    · obtain ⟨_, hch, hcs, hapt, haa, hlast, hju, _⟩ := deliver_chunk_frame e e.data.index
      simp [h1, h2, hch, hcs, hapt, haa, hlast, hju]

lemma send_next_chunk_mono (e : Env) :
    e.data.index ≤ (send_next_chunk e).1.data.index := by
  unfold send_next_chunk
  by_cases h1 : e.data.completed = true
  · simp [h1]
  · by_cases h2 : (e.data.chunks.length : Int) ≤ e.data.index
    · simp [h1, h2, sendMsg]
    · obtain ⟨hidx, _, _, _, _, _, _, _⟩ := deliver_chunk_frame e e.data.index
      simp only [h1, h2, Bool.false_eq_true, if_false, hidx]
      omega

lemma send_next_chunk_inv (e : Env) (hiv : SessionInv e) :
    SessionInv (send_next_chunk e).1 := by
  obtain ⟨hl, hu⟩ := hiv
  unfold send_next_chunk
  by_cases h1 : e.data.completed = true
  · simpa [h1] using ⟨hl, hu⟩
  · by_cases h2 : (e.data.chunks.length : Int) ≤ e.data.index
    · simpa [h1, h2, sendMsg, SessionInv] using ⟨hl, hu⟩
    · obtain ⟨hidx, hch, _, _, _, _, _, _⟩ := deliver_chunk_frame e e.data.index
      simp [h1, h2, SessionInv, hidx, hch]
      omega

lemma send_next_chunk_reactors (e : Env) :
    (send_next_chunk e).1.data.latest_reactors = e.data.latest_reactors ∨
    (send_next_chunk e).1.data.latest_reactors = ∅ := by
  unfold send_next_chunk
  by_cases h1 : e.data.completed = true
  · simp [h1]
  · by_cases h2 : (e.data.chunks.length : Int) ≤ e.data.index
    · simp [h1, h2, sendMsg]
    · rcases deliver_chunk_reactors e e.data.index with h | h
    

      · exact Or.inl (by simp [h1, h2, h])
      · exact Or.inr (by simp [h1, h2, h])

lemma send_next_chunk_clears (e : Env) (hc : e.data.completed = false) (hiv : SessionInv e) :
    (send_next_chunk e).1.data.latest_reactors = ∅ := by
  obtain ⟨hl, hu⟩ := hiv
  unfold send_next_chunk
  by_cases h2 : (e.data.chunks.length : Int) ≤ e.data.index
  · simp [hc, h2, sendMsg]
  · rw [deliver_chunk_in_range e e.data.index (by omega) (by omega)]
    simp [hc, h2]

lemma send_chunk_batch_go_frame (n : Nat) (e : Env) (s : Nat) :
    (send_chunk_batch_go e n s).1.data.chunks = e.data.chunks ∧
    (send_chunk_batch_go e n s).1.data.chunk_size = e.data.chunk_size ∧
    (send_chunk_batch_go e n s).1.data.auto_post_time = e.data.auto_post_time ∧
    (send_chunk_batch_go e n s).1.data.auto_active = e.data.auto_active ∧
    (send_chunk_batch_go e n s).1.data.last_auto_post_date = e.data.last_auto_post_date ∧
    (send_chunk_batch_go e n s).1.data.joined_users = e.data.joined_users := by
  induction n generalizing e s with
  | zero => exact ⟨rfl, rfl, rfl, rfl, rfl, rfl⟩
  | succ m ih =>
    unfold send_chunk_batch_go
    obtain ⟨hch, hcs, hapt, haa, hlast, hju⟩ := send_next_chunk_frame e
    rcases hr : (send_next_chunk e).2 with _ | mid
    · simpa [hr] using ⟨hch, hcs, hapt, haa, hlast, hju⟩
    · obtain ⟨ich, ics, iapt, iaa, ilast, iju⟩ := ih (send_next_chunk e).1 (s + 1)
      simp only [hr]
      exact ⟨ich.trans hch, ics.trans hcs, iapt.trans hapt, iaa.trans haa,
        ilast.trans hlast, iju.trans hju⟩

lemma send_chunk_batch_go_mono (n : Nat) (e : Env) (s : Nat) :
    e.data.index ≤ (send_chunk_batch_go e n s).1.data.index := by
  induction n generalizing e s with
  | zero => exact le_refl _
  | succ m ih =>
    unfold send_chunk_batch_go
    rcases hr : (send_next_chunk e).2 with _ | mid
    · simpa [hr] using send_next_chunk_mono e
    · simp only [hr]
      exact (send_next_chunk_mono e).trans (ih (send_next_chunk e).1 (s + 1))

lemma send_chunk_batch_go_inv (n : Nat) (e : Env) (s : Nat) (hiv : SessionInv e) :
    SessionInv (send_chunk_batch_go e n s).1 := by
  induction n generalizing e s with
  | zero => exact hiv
  | succ m ih =>
    unfold send_chunk_batch_go
    rcases hr : (send_next_chunk e).2 with _ | mid
    · simpa [hr] using send_next_chunk_inv e hiv
    · simp only [hr]
      exact ih (send_next_chunk e).1 (s + 1) (send_next_chunk_inv e hiv)

lemma send_chunk_batch_go_reactors (n : Nat) (e : Env) (s : Nat) :
    (send_chunk_batch_go e n s).1.data.latest_reactors = e.data.latest_reactors ∨
    (send_chunk_batch_go e n s).1.data.latest_reactors = ∅ := by
  induction n generalizing e s with
  | zero => exact Or.inl rfl
  | succ m ih =>
    unfold send_chunk_batch_go
    rcases hr : (send_next_chunk e).2 with _ | mid
    · simpa [hr] using send_next_chunk_reactors e
    · simp only [hr]
      rcases ih (send_next_chunk e).1 (s + 1) with h | h
      · rw [h]; exact send_next_chunk_reactors e
      · exact Or.inr h

lemma send_chunk_batch_go_clears (n : Nat) (e : Env) (s : Nat) (hn : 1 ≤ n)
    (hc : e.data.completed = false) (hiv : SessionInv e) :
    (send_chunk_batch_go e n s).1.data.latest_reactors = ∅ := by
  obtain ⟨m, rfl⟩ : ∃ m, n = m + 1 := ⟨n - 1, by omega⟩
  unfold send_chunk_batch_go
  have hclear := send_next_chunk_clears e hc hiv
  rcases hr : (send_next_chunk e).2 with _ | mid
  · simpa [hr] using hclear
  · simp only [hr]
    rcases send_chunk_batch_go_reactors m (send_next_chunk e).1 (s + 1) with h | h
    · rw [h]; exact hclear
    · exact h

lemma setChunkSize_fields (e : Env) (k : Int) :
    (setChunkSize e k).data.chunk_size = max 1 (min 50 k) ∧
    (setChunkSize e k).data.chunks = rebuild_chunks_from_existing e.data.chunks (max 1 (min 50 k)) ∧
    (setChunkSize e k).data.index =
      min e.data.index ((rebuild_chunks_from_existing e.data.chunks (max 1 (min 50 k))).length : Int) ∧
    (setChunkSize e k).data.joined_users = e.data.joined_users ∧
    (setChunkSize e k).data.latest_reactors = e.data.latest_reactors := by
  exact ⟨rfl, rfl, rfl, rfl, rfl⟩

lemma setChunkSize_inv (e : Env) (k : Int) (hiv : SessionInv e) :
    SessionInv (setChunkSize e k) := by
  obtain ⟨hl, _⟩ := hiv
  obtain ⟨_, _, hidx, _, _⟩ := setChunkSize_fields e k
  constructor
  · rw [hidx]; positivity
  · rw [hidx, (setChunkSize_fields e k).2.1]
    exact min_le_right _ _

lemma jump_command_inv (e : Env) (c : Int) (hiv : SessionInv e) :
    SessionInv (jump_command e c) := by
  unfold jump_command
  by_cases h0 : (e.data.chunks.length : Int) = 0
  · simpa [h0] using hiv
  · rw [if_neg h0]
    by_cases h1 : c < 1 ∨ (e.data.chunks.length : Int) < c
    · simpa [h1] using hiv
    · rw [if_neg h1]
      push_neg at h1
      obtain ⟨hidx, hch, _, _, _, _, _, _⟩ :=
        deliver_chunk_frame
          { e with data := { e.data with index := max 0 (c - 1), completed := false } }
          (max 0 (c - 1))
      rcases hdel : (deliver_chunk
          { e with data := { e.data with index := max 0 (c - 1), completed := false } }
          (max 0 (c - 1))).2 with _ | mid
      · simp only [hdel]
        refine ⟨?_, ?_⟩
        · rw [hidx]; simp
        · rw [hidx, hch]; simp; omega
      · simp only [hdel]
        refine ⟨by simp; omega, ?_⟩
        show c ≤ _
        rw [hch]
        simp
        omega

lemma again_command_index (e : Env) :
    (again_command e).data.index = e.data.index ∧
    (again_command e).data.chunks = e.data.chunks := by
  unfold again_command
  by_cases h : e.data.chunks = [] ∨ e.data.index = 0
  · simp [h]
  · obtain ⟨hidx, hch, _, _, _, _, _, _⟩ :=
      deliver_chunk_frame e (min e.data.index (e.data.chunks.length : Int) - 1)
    simp only [h, if_false]
    exact ⟨hidx, hch⟩

lemma set_time_fields (e : Env) (t : Str) (d : Int) (hh mm : Nat) :
    (set_time e t d hh mm).data.index = e.data.index ∧
    (set_time e t d hh mm).data.chunks = e.data.chunks ∧
    (set_time e t d hh mm).data.chunk_size = e.data.chunk_size ∧
    (set_time e t d hh mm).data.joined_users = e.data.joined_users ∧
    (set_time e t d hh mm).data.latest_reactors = e.data.latest_reactors ∧
    (set_time e t d hh mm).data.completed = e.data.completed := by
  unfold set_time
  rcases parseHHMM t with _ | ⟨H, M⟩
  · exact ⟨rfl, rfl, rfl, rfl, rfl, rfl⟩
  · by_cases ha : e.data.auto_active = true <;>
      by_cases hc : H < hh ∨ (H = hh ∧ M ≤ mm) <;>
      simp [ha, hc]

lemma start_fields (e : Env) (d : Int) (hh mm : Nat) :
    (start e d hh mm).data.index = e.data.index ∧
    (start e d hh mm).data.chunks = e.data.chunks ∧
    (start e d hh mm).data.chunk_size = e.data.chunk_size ∧
    (start e d hh mm).data.joined_users = e.data.joined_users ∧
    (start e d hh mm).data.latest_reactors = e.data.latest_reactors ∧
    (start e d hh mm).data.completed = e.data.completed := by
  unfold start
  rcases hapt : e.data.auto_post_time with _ | ⟨H, M⟩
  · simp [hapt]
  · by_cases hc : H < hh ∨ (H = hh ∧ M ≤ mm) <;> simp [hapt, hc]

lemma join_command_fields (e : Env) (uid : Nat) :
    (join_command e uid).data.index = e.data.index ∧
    (join_command e uid).data.chunks = e.data.chunks ∧
    (join_command e uid).data.chunk_size = e.data.chunk_size ∧
    (join_command e uid).data.completed = e.data.completed := by
  unfold join_command
  by_cases h : uid ∈ e.data.joined_users <;> simp [h]

lemma check_scheduled_posts_cases (e : Env) (d : Int) (hh mm : Nat) :
    check_scheduled_posts e d hh mm = e ∨
    check_scheduled_posts e d hh mm =
      { (send_next_chunk e).1 with data :=
          { (send_next_chunk e).1.data with last_auto_post_date := some d } } := by
  unfold check_scheduled_posts
  split
  · exact Or.inl rfl
  · rcases hapt : e.data.auto_post_time with _ | ⟨H, M⟩
    · exact Or.inl (by simp [hapt])
    · simp only [hapt]
      by_cases hc : H = hh ∧ M = mm
      · exact Or.inr (by rw [if_pos hc])
      · exact Or.inl (by rw [if_neg hc])

lemma reaction_cases (e : Env) (uid mid : Nat) (isBot isSelf : Bool) :
    (on_raw_reaction_add e uid mid isBot isSelf).1 = e ∨
    (on_raw_reaction_add e uid mid isBot isSelf).1 =
      { e with data := { e.data with latest_reactors := insert uid e.data.latest_reactors } } ∨
    (on_raw_reaction_add e uid mid isBot isSelf).1 =
      (send_chunk_batch
        { e with data := { e.data with latest_reactors := insert uid e.data.latest_reactors } }
        e.data.chunk_size).1 := by
  unfold on_raw_reaction_add reaction_after_add
  by_cases hacc : reaction_accepted e uid mid isBot isSelf = true
  · rw [if_pos hacc, if_pos hacc]
    by_cases hcons :
        ({ e with data := { e.data with
            latest_reactors := insert uid e.data.latest_reactors } } : Env).data.joined_users.Nonempty ∧
        ({ e with data := { e.data with
            latest_reactors := insert uid e.data.latest_reactors } } : Env).data.joined_users ⊆
          ({ e with data := { e.data with
            latest_reactors := insert uid e.data.latest_reactors } } : Env).data.latest_reactors
    · exact Or.inr (Or.inr (by rw [if_pos hcons]))
    · exact Or.inr (Or.inl (by rw [if_neg hcons]))
  · exact Or.inl (by rw [if_neg hacc])

lemma again_command_cases (e : Env) :
    again_command e = e ∨
    again_command e = (deliver_chunk e (min e.data.index (e.data.chunks.length : Int) - 1)).1 := by
  unfold again_command
  by_cases h : e.data.chunks = [] ∨ e.data.index = 0
  · exact Or.inl (by rw [if_pos h])
  · exact Or.inr (by rw [if_neg h])

lemma reaction_accepted_completed (e : Env) (uid mid : Nat) (isBot isSelf : Bool)
    (h : reaction_accepted e uid mid isBot isSelf = true) : e.data.completed = false := by
  unfold reaction_accepted at h
  simp only [Bool.and_eq_true, Bool.not_eq_true'] at h
  exact h.1.1.2

lemma reaction_cases_detail (e : Env) (uid mid : Nat) (isBot isSelf : Bool) :
    (on_raw_reaction_add e uid mid isBot isSelf).1 = e ∨
    ((on_raw_reaction_add e uid mid isBot isSelf).1 =
        { e with data := { e.data with latest_reactors := insert uid e.data.latest_reactors } } ∧
      ¬(e.data.joined_users.Nonempty ∧
          e.data.joined_users ⊆ insert uid e.data.latest_reactors)) ∨
    ((on_raw_reaction_add e uid mid isBot isSelf).1 =
        (send_chunk_batch
          { e with data := { e.data with latest_reactors := insert uid e.data.latest_reactors } }
          e.data.chunk_size).1 ∧
      e.data.completed = false) := by
  unfold on_raw_reaction_add reaction_after_add
  by_cases hacc : reaction_accepted e uid mid isBot isSelf = true
  · rw [if_pos hacc, if_pos hacc]
    by_cases hcons :
        ({ e with data := { e.data with
            latest_reactors := insert uid e.data.latest_reactors } } : Env).data.joined_users.Nonempty ∧
        ({ e with data := { e.data with
            latest_reactors := insert uid e.data.latest_reactors } } : Env).data.joined_users ⊆
          ({ e with data := { e.data with
            latest_reactors := insert uid e.data.latest_reactors } } : Env).data.latest_reactors
    · exact Or.inr (Or.inr ⟨by rw [if_pos hcons], reaction_accepted_completed e uid mid _ _ hacc⟩)
    · exact Or.inr (Or.inl ⟨by rw [if_neg hcons], hcons⟩)
  · exact Or.inl (by rw [if_neg hacc])

lemma sessionInv_init (content : Str) : SessionInv (initEnv content) := by
  constructor
  · exact le_refl 0
  · exact Int.ofNat_nonneg _

lemma sessionInv_of_eq_data {e e' : Env}
    (hidx : e'.data.index = e.data.index) (hch : e'.data.chunks = e.data.chunks)
    (h : SessionInv e) : SessionInv e' := by
  unfold SessionInv
  rw [hidx, hch]
  exact h

lemma sessionInv_step (op : Op) (e : Env) (hiv : SessionInv e) : SessionInv (applyOp op e) := by
  cases op with
  | opSetChunkSize size => exact setChunkSize_inv e size hiv
  | opSetTime t d hh mm =>
    obtain ⟨h1, h2, _, _, _, _⟩ := set_time_fields e t d hh mm
    exact sessionInv_of_eq_data h1 h2 hiv
  | opStart d hh mm =>
    obtain ⟨h1, h2, _, _, _, _⟩ := start_fields e d hh mm
    exact sessionInv_of_eq_data h1 h2 hiv
  | opJoin uid =>
    obtain ⟨h1, h2, _, _⟩ := join_command_fields e uid
    exact sessionInv_of_eq_data h1 h2 hiv
  | opJump c => exact jump_command_inv e c hiv
  | opAgain =>
    obtain ⟨h1, h2⟩ := again_command_index e
    exact sessionInv_of_eq_data h1 h2 hiv
  | opMore => exact send_chunk_batch_go_inv _ _ _ hiv
  | opTick d hh mm =>
    rcases check_scheduled_posts_cases e d hh mm with h | h
    · rw [show applyOp (Op.opTick d hh mm) e = check_scheduled_posts e d hh mm from rfl, h]
      exact hiv
    · rw [show applyOp (Op.opTick d hh mm) e = check_scheduled_posts e d hh mm from rfl, h]
      exact sessionInv_of_eq_data rfl rfl (send_next_chunk_inv e hiv)
  | opReaction uid mid b s =>
    rcases reaction_cases_detail e uid mid b s with h | ⟨h, _⟩ | ⟨h, _⟩
    · rw [show applyOp (Op.opReaction uid mid b s) e = (on_raw_reaction_add e uid mid b s).1 from rfl, h]
      exact hiv
    · rw [show applyOp (Op.opReaction uid mid b s) e = (on_raw_reaction_add e uid mid b s).1 from rfl, h]
      exact sessionInv_of_eq_data rfl rfl hiv
    · rw [show applyOp (Op.opReaction uid mid b s) e = (on_raw_reaction_add e uid mid b s).1 from rfl, h]
      exact send_chunk_batch_go_inv _ _ _ (sessionInv_of_eq_data rfl rfl hiv)
  | opAdvance => exact send_next_chunk_inv e hiv
  | opAdvanceBatch n => exact send_chunk_batch_go_inv _ _ _ hiv

lemma index_mono_step (op : Op) (e : Env)
    (hj : ∀ k, op ≠ Op.opJump k) (hs : ∀ k, op ≠ Op.opSetChunkSize k) :
    e.data.index ≤ (applyOp op e).data.index := by
  cases op with
  | opSetChunkSize size => exact absurd rfl (hs size)
  | opJump c => exact absurd rfl (hj c)
  | opSetTime t d hh mm => exact le_of_eq (set_time_fields e t d hh mm).1.symm
  | opStart d hh mm => exact le_of_eq (start_fields e d hh mm).1.symm
  | opJoin uid => exact le_of_eq (join_command_fields e uid).1.symm
  | opAgain => exact le_of_eq (again_command_index e).1.symm
  | opMore => exact send_chunk_batch_go_mono _ _ _
  | opTick d hh mm =>
    rcases check_scheduled_posts_cases e d hh mm with h | h
    · rw [show applyOp (Op.opTick d hh mm) e = check_scheduled_posts e d hh mm from rfl, h]
    · rw [show applyOp (Op.opTick d hh mm) e = check_scheduled_posts e d hh mm from rfl, h]
      exact send_next_chunk_mono e
  | opReaction uid mid b s =>
    rcases reaction_cases_detail e uid mid b s with h | ⟨h, _⟩ | ⟨h, _⟩
    · rw [show applyOp (Op.opReaction uid mid b s) e = (on_raw_reaction_add e uid mid b s).1 from rfl, h]
    · rw [show applyOp (Op.opReaction uid mid b s) e = (on_raw_reaction_add e uid mid b s).1 from rfl, h]
    · rw [show applyOp (Op.opReaction uid mid b s) e = (on_raw_reaction_add e uid mid b s).1 from rfl, h]
      exact send_chunk_batch_go_mono _ _ _
  | opAdvance => exact send_next_chunk_mono e
  | opAdvanceBatch n => exact send_chunk_batch_go_mono _ _ _

/-- The reachable-state facts the consensus gate relies on: the chunk size is
at least one, and whenever someone has joined, not every joined user is already
recorded as a reactor for the latest message. -/
def GoodS (e : Env) : Prop :=
  1 ≤ e.data.chunk_size ∧
  (e.data.joined_users.Nonempty → ¬ e.data.joined_users ⊆ e.data.latest_reactors)

lemma goodS_of_fields {e e' : Env}
    (hcs : e'.data.chunk_size = e.data.chunk_size)
    (hju : e'.data.joined_users = e.data.joined_users)
    (hlr : e'.data.latest_reactors = e.data.latest_reactors)
    (h : GoodS e) : GoodS e' := by
  unfold GoodS
  rw [hcs, hju, hlr]
  exact h

lemma goodS_of_cleared {e e' : Env}
    (hcs : e'.data.chunk_size = e.data.chunk_size)
    (hlr : e'.data.latest_reactors = ∅)
    (h : 1 ≤ e.data.chunk_size) : GoodS e' := by
  refine ⟨hcs ▸ h, fun hne hsub => ?_⟩
  rw [hlr] at hsub
  exact hne.ne_empty (Finset.subset_empty.mp hsub)

lemma jump_command_cs_joined_reactors (e : Env) (c : Int) :
    (jump_command e c).data.chunk_size = e.data.chunk_size ∧
    (jump_command e c).data.joined_users = e.data.joined_users ∧
    ((jump_command e c).data.latest_reactors = e.data.latest_reactors ∨
      (jump_command e c).data.latest_reactors = ∅) := by
  unfold jump_command
  by_cases h0 : (e.data.chunks.length : Int) = 0
  · simp [h0]
  · rw [if_neg h0]
    by_cases h1 : c < 1 ∨ (e.data.chunks.length : Int) < c
    · simp [h1]
    · rw [if_neg h1]
      obtain ⟨_, _, hcs, _, _, _, hju, _⟩ :=
        deliver_chunk_frame
          { e with data := { e.data with index := max 0 (c - 1), completed := false } }
          (max 0 (c - 1))
      rcases hdel : (deliver_chunk
          { e with data := { e.data with index := max 0 (c - 1), completed := false } }
          (max 0 (c - 1))).2 with _ | mid
      · simp only [hdel]
        refine ⟨hcs, hju, ?_⟩
        rcases deliver_chunk_reactors
            { e with data := { e.data with index := max 0 (c - 1), completed := false } }
            (max 0 (c - 1)) with h | h
        · exact Or.inl h
        · exact Or.inr h
      · simp only [hdel]
        exact ⟨hcs, hju,
          Or.inr (deliver_chunk_some_reactors _ _ _ hdel)⟩

lemma goodS_step (op : Op) (e : Env) (hiv : SessionInv e) (hg : GoodS e) :
    GoodS (applyOp op e) := by
  obtain ⟨hcs1, hcons⟩ := hg
  cases op with
  | opSetChunkSize size =>
    show GoodS (setChunkSize e size)
    obtain ⟨h1, _, _, h4, h5⟩ := setChunkSize_fields e size
    refine ⟨h1 ▸ le_max_left _ _, ?_⟩
    rw [h4, h5]
    exact hcons
  | opSetTime t d hh mm =>
    obtain ⟨_, _, h3, h4, h5, _⟩ := set_time_fields e t d hh mm
    exact goodS_of_fields h3 h4 h5 ⟨hcs1, hcons⟩
  | opStart d hh mm =>
    obtain ⟨_, _, h3, h4, h5, _⟩ := start_fields e d hh mm
    exact goodS_of_fields h3 h4 h5 ⟨hcs1, hcons⟩
  | opJoin uid =>
    show GoodS (join_command e uid)
    unfold join_command
    by_cases h : uid ∈ e.data.joined_users
    · rw [if_pos h]; exact ⟨hcs1, hcons⟩
    · rw [if_neg h]
      refine ⟨hcs1, fun _ hsub => ?_⟩
      have huid := hsub (Finset.mem_insert_self uid e.data.joined_users)
      exact Finset.not_mem_erase uid e.data.latest_reactors huid
  | opJump c =>
    obtain ⟨h1, h2, h3 | h3⟩ := jump_command_cs_joined_reactors e c
    · exact goodS_of_fields h1 h2 h3 ⟨hcs1, hcons⟩
    · exact goodS_of_cleared h1 h3 hcs1
  | opAgain =>
    rcases again_command_cases e with h | h
    · rw [show applyOp Op.opAgain e = again_command e from rfl, h]; exact ⟨hcs1, hcons⟩
    · rw [show applyOp Op.opAgain e = again_command e from rfl, h]
      obtain ⟨_, _, hcs, _, _, _, hju, _⟩ :=
        deliver_chunk_frame e (min e.data.index (e.data.chunks.length : Int) - 1)
      rcases deliver_chunk_reactors e (min e.data.index (e.data.chunks.length : Int) - 1)
          with hr | hr
      · exact goodS_of_fields hcs hju hr ⟨hcs1, hcons⟩
      · exact goodS_of_cleared hcs hr hcs1
  | opMore =>
    obtain ⟨_, hcs, _, _, _, hju⟩ := send_chunk_batch_go_frame e.data.chunk_size.toNat e 0
    rcases send_chunk_batch_go_reactors e.data.chunk_size.toNat e 0 with hr | hr
    · exact goodS_of_fields hcs hju hr ⟨hcs1, hcons⟩
    · exact goodS_of_cleared hcs hr hcs1
  | opTick d hh mm =>
    rcases check_scheduled_posts_cases e d hh mm with h | h
    · rw [show applyOp (Op.opTick d hh mm) e = check_scheduled_posts e d hh mm from rfl, h]
      exact ⟨hcs1, hcons⟩
    · rw [show applyOp (Op.opTick d hh mm) e = check_scheduled_posts e d hh mm from rfl, h]
      obtain ⟨_, hcs, _, _, _, hju⟩ := send_next_chunk_frame e
      rcases send_next_chunk_reactors e with hr | hr
      · exact goodS_of_fields hcs hju hr ⟨hcs1, hcons⟩
      · exact goodS_of_cleared hcs hr hcs1
  | opReaction uid mid b s =>
    rcases reaction_cases_detail e uid mid b s with h | ⟨h, hnc⟩ | ⟨h, hcompl⟩
    · rw [show applyOp (Op.opReaction uid mid b s) e = (on_raw_reaction_add e uid mid b s).1 from rfl, h]
      exact ⟨hcs1, hcons⟩
    · rw [show applyOp (Op.opReaction uid mid b s) e = (on_raw_reaction_add e uid mid b s).1 from rfl, h]
      exact ⟨hcs1, fun hne hsub => hnc ⟨hne, hsub⟩⟩
    · rw [show applyOp (Op.opReaction uid mid b s) e = (on_raw_reaction_add e uid mid b s).1 from rfl, h]
      obtain ⟨_, hcs, _, _, _, hju⟩ :=
        send_chunk_batch_go_frame e.data.chunk_size.toNat
          { e with data := { e.data with latest_reactors := insert uid e.data.latest_reactors } } 0
      refine goodS_of_cleared hcs ?_ hcs1
      exact send_chunk_batch_go_clears _ _ _ (by omega) hcompl
        (sessionInv_of_eq_data rfl rfl hiv)
  | opAdvance =>
    obtain ⟨_, hcs, _, _, _, hju⟩ := send_next_chunk_frame e
    rcases send_next_chunk_reactors e with hr | hr
    · exact goodS_of_fields hcs hju hr ⟨hcs1, hcons⟩
    · exact goodS_of_cleared hcs hr hcs1
  | opAdvanceBatch n =>
    obtain ⟨_, hcs, _, _, _, hju⟩ := send_chunk_batch_go_frame n.toNat e 0
    rcases send_chunk_batch_go_reactors n.toNat e 0 with hr | hr
    · exact goodS_of_fields hcs hju hr ⟨hcs1, hcons⟩
    · exact goodS_of_cleared hcs hr hcs1

lemma goodS_init (content : Str) : GoodS (initEnv content) := by
  refine ⟨by norm_num [initEnv, create_reading_state], fun hne _ => ?_⟩
  exact Finset.not_nonempty_empty hne

/-- Every reachable session environment satisfies both the index invariant and
the consensus-gate facts. -/
lemma reach_inv {e : Env} (h : Reach e) : SessionInv e ∧ GoodS e := by
  induction h with
  | init content => exact ⟨sessionInv_init content, goodS_init content⟩
  | step op hr ih => exact ⟨sessionInv_step op _ ih.1, goodS_step op _ ih.1 ih.2⟩

/-! ## demonstration environments used by witnesses -/

/-- A small loaded text whose fallback split yields three qualifying sentences. -/
def demoText : Str := str "First sentence is long. Second sentence also long. Third one is long too."

/-- A tiny single-chunk session. -/
def demoEnv : Env := { data := { chunks := [str "hello"], index := 0, chunk_size := 3 } }

/-- A session already marked completed. -/
def demoCompletedEnv : Env :=
  { data := { chunks := [str "hello"], index := 1, chunk_size := 3, completed := true } }

/-- A session with an armed daily schedule at 09:00. -/
def demoSchedEnv : Env :=
  { data := { chunks := [str "hello"], index := 0, chunk_size := 3,
              auto_post_time := some (9, 0), auto_active := true } }

/-- A session with no chunks loaded. -/
def demoEmptyEnv : Env := { data := { chunks := [], index := 0, chunk_size := 3 } }

/-- A reachable session in which user 7 has joined. -/
def demoReachedEnv : Env := applyOp (Op.opJoin 7) (initEnv demoText)

/-! ## claims -/

/-- C1: for every reachable session with non-empty `joinedUsers`, processing an
acknowledgment event triggers the consensus batch delivery if and only if
`joinedUsers` is a subset of `latestReactors` after the reactor-recording step;
and `latestReactors` is empty immediately after any delivery. -/
theorem C1_consensus_gate (e : Env) (hr : Reach e) (hne : e.data.joined_users.Nonempty) :
    (∀ (user_id message_id : Nat) (isBot isSelf : Bool),
        (on_raw_reaction_add e user_id message_id isBot isSelf).2 = true ↔
          e.data.joined_users ⊆
            (reaction_after_add e user_id message_id isBot isSelf).data.latest_reactors) ∧
    (∀ (e' : Env) (i : Int) (mid : Nat), (deliver_chunk e' i).2 = some mid →
        (deliver_chunk e' i).1.data.latest_reactors = ∅) := by
  obtain ⟨_, _, hcons⟩ := reach_inv hr
  refine ⟨fun uid mid b s => ?_, fun e' i mid h => deliver_chunk_some_reactors e' i mid h⟩
  unfold on_raw_reaction_add reaction_after_add
  by_cases hacc : reaction_accepted e uid mid b s = true
  · rw [if_pos hacc, if_pos hacc]
    by_cases hsub : e.data.joined_users ⊆ insert uid e.data.latest_reactors
    · rw [if_pos (⟨hne, hsub⟩ :
        ({ e with data := { e.data with
            latest_reactors := insert uid e.data.latest_reactors } } : Env).data.joined_users.Nonempty ∧
        ({ e with data := { e.data with
            latest_reactors := insert uid e.data.latest_reactors } } : Env).data.joined_users ⊆
          ({ e with data := { e.data with
            latest_reactors := insert uid e.data.latest_reactors } } : Env).data.latest_reactors)]
      exact ⟨fun _ => hsub, fun _ => rfl⟩
    · rw [if_neg (fun hc => hsub hc.2)]
      exact iff_of_false (by simp) hsub
  · rw [if_neg hacc, if_neg hacc]
    exact iff_of_false (by simp) (hcons hne)

theorem C1_witness :
    (on_raw_reaction_add demoReachedEnv 7 0 false false).2 = true ↔
      demoReachedEnv.data.joined_users ⊆
        (reaction_after_add demoReachedEnv 7 0 false false).data.latest_reactors :=
  (C1_consensus_gate demoReachedEnv (Reach.step (Op.opJoin 7) (Reach.init demoText))
    (by decide)).1 7 0 false false

/-- C2: the invariant `0 ≤ index ≤ len(chunks)` holds initially and is
preserved by every operation, and `index` is non-decreasing under every
operation except `jump` and re-chunk (`setchunksize`). -/
theorem C2_index_invariant :
    (∀ content : Str, SessionInv (initEnv content)) ∧
    (∀ (op : Op) (e : Env), SessionInv e → SessionInv (applyOp op e)) ∧
    (∀ (op : Op) (e : Env), (∀ k, op ≠ Op.opJump k) → (∀ k, op ≠ Op.opSetChunkSize k) →
        e.data.index ≤ (applyOp op e).data.index) :=
  ⟨sessionInv_init, sessionInv_step, index_mono_step⟩

theorem C2_witness :
    SessionInv demoEnv ∧ SessionInv (applyOp Op.opMore demoEnv) ∧
    demoEnv.data.index ≤ (applyOp Op.opMore demoEnv).data.index :=
  ⟨by constructor <;> decide,
   C2_index_invariant.2.1 Op.opMore demoEnv (by constructor <;> decide),
   C2_index_invariant.2.2 Op.opMore demoEnv (fun k h => nomatch h) (fun k h => nomatch h)⟩

/-- C3: when `completed` is already true, `advance` (`send_next_chunk`) returns
`none`, sends nothing, and leaves the whole environment unchanged. -/
theorem C3_completed_advance_noop (e : Env) (h : e.data.completed = true) :
    send_next_chunk e = (e, none) := by
  unfold send_next_chunk
  rw [if_pos h]

theorem C3_witness :
    demoCompletedEnv.data.completed = true ∧
      send_next_chunk demoCompletedEnv = (demoCompletedEnv, none) :=
  ⟨rfl, C3_completed_advance_noop demoCompletedEnv rfl⟩

/-- C4: on a scheduler tick for an armed, uncompleted session that has not yet
fired today, a matching hour and minute triggers `advance` and stamps
`lastAutoPostDate` with today regardless of the advance's outcome, and any
further tick on the same date is then a no-op. -/
theorem C4_scheduler_once_per_day (e : Env) (d : Int) (hh mm : Nat)
    (hact : e.data.auto_active = true)
    (htime : e.data.auto_post_time = some (hh, mm))
    (hcomp : e.data.completed = false)
    (hlast : e.data.last_auto_post_date ≠ some d) :
    check_scheduled_posts e d hh mm =
      { (send_next_chunk e).1 with data :=
          { (send_next_chunk e).1.data with last_auto_post_date := some d } } ∧
    (check_scheduled_posts e d hh mm).data.last_auto_post_date = some d ∧
    (∀ hh' mm', check_scheduled_posts (check_scheduled_posts e d hh mm) d hh' mm' =
        check_scheduled_posts e d hh mm) := by
  have heq : check_scheduled_posts e d hh mm =
      { (send_next_chunk e).1 with data :=
          { (send_next_chunk e).1.data with last_auto_post_date := some d } } := by
    unfold check_scheduled_posts
    rw [if_neg (by simp [hact, htime, hcomp, hlast])]
    rw [htime]
    dsimp only
    rw [if_pos (⟨rfl, rfl⟩ : hh = hh ∧ mm = mm)]
  refine ⟨heq, by rw [heq], fun hh' mm' => ?_⟩
  rw [heq]
  conv_lhs => unfold check_scheduled_posts
  rw [if_pos (Or.inr (Or.inr (Or.inr rfl)))]

theorem C4_witness :
    (check_scheduled_posts demoSchedEnv 1 9 0).data.last_auto_post_date = some 1 ∧
    (∀ hh' mm', check_scheduled_posts (check_scheduled_posts demoSchedEnv 1 9 0) 1 hh' mm' =
        check_scheduled_posts demoSchedEnv 1 9 0) :=
  ⟨(C4_scheduler_once_per_day demoSchedEnv 1 9 0 rfl rfl rfl (by decide)).2.1,
   (C4_scheduler_once_per_day demoSchedEnv 1 9 0 rfl rfl rfl (by decide)).2.2⟩

/-- C5: `deliverAt` (`deliver_chunk`) is a no-op returning `none` on an
out-of-range index; in range it records the identifier of the last sent
segment as `latestMessageId`, clears `latestReactors`, appends exactly the
rendered segments to the transcript, and leaves `index`, `chunks`,
`chunkSize`, the schedule fields and `joinedUsers` unchanged. -/
theorem C5_deliverAt_frame (e : Env) (i : Int) :
    ((i < 0 ∨ (e.data.chunks.length : Int) ≤ i) → deliver_chunk e i = (e, none)) ∧
    (0 ≤ i → i < (e.data.chunks.length : Int) →
      (deliver_chunk e i).2 =
          some (e.nextId +
            (format_chunk_messages i.toNat (e.data.chunks.getD i.toNat [])).length - 1) ∧
      (deliver_chunk e i).1.sent =
          e.sent ++ format_chunk_messages i.toNat (e.data.chunks.getD i.toNat []) ∧
      (deliver_chunk e i).1.data.latest_message_id = (deliver_chunk e i).2 ∧
      (deliver_chunk e i).1.data.latest_reactors = ∅ ∧
      (deliver_chunk e i).1.data.index = e.data.index ∧
      (deliver_chunk e i).1.data.chunks = e.data.chunks ∧
      (deliver_chunk e i).1.data.chunk_size = e.data.chunk_size ∧
      (deliver_chunk e i).1.data.auto_post_time = e.data.auto_post_time ∧
      (deliver_chunk e i).1.data.auto_active = e.data.auto_active ∧
      (deliver_chunk e i).1.data.last_auto_post_date = e.data.last_auto_post_date ∧
      (deliver_chunk e i).1.data.joined_users = e.data.joined_users) := by
  refine ⟨fun h => deliver_chunk_out_of_range e i h, fun h0 h1 => ?_⟩
  rw [deliver_chunk_in_range e i h0 h1]
  exact ⟨rfl, rfl, rfl, rfl, rfl, rfl, rfl, rfl, rfl, rfl, rfl⟩

theorem C5_witness :
    (0 ≤ (0 : Int) ∧ (0 : Int) < (demoEnv.data.chunks.length : Int)) ∧
    (deliver_chunk demoEnv 0).1.data.latest_reactors = ∅ ∧
    (deliver_chunk demoEnv 0).1.data.index = demoEnv.data.index :=
  ⟨⟨by decide, by decide⟩,
   ((C5_deliverAt_frame demoEnv 0).2 (by decide) (by decide)).2.2.2.1,
   ((C5_deliverAt_frame demoEnv 0).2 (by decide) (by decide)).2.2.2.2.1⟩

/-- C9 as stated is false: a bad (out-of-range) chunk size is not rejected;
`setchunksize 0` on a session with chunk size 3 clamps to 1 and mutates the
session. -/
theorem C9_counterexample :
    (setChunkSize demoEnv 0).data.chunk_size = 1 ∧ demoEnv.data.chunk_size = 3 ∧
      (setChunkSize demoEnv 0).data ≠ demoEnv.data := by
  refine ⟨rfl, rfl, ?_⟩
  intro h
  exact absurd (congrArg ChannelBookState.chunk_size h) (by decide)

/-- C9 (amended): a malformed `HH:MM` time string and an out-of-range jump
target are rejected with no session state mutated; a bad chunk size is not
rejected but clamped into `[1, 50]` and applied. -/
theorem C9_validation_no_mutation :
    (∀ (e : Env) (t : Str) (d : Int) (hh mm : Nat),
        parseHHMM t = none → set_time e t d hh mm = e) ∧
    (∀ (e : Env) (c : Int),
        ((e.data.chunks.length : Int) = 0 ∨ c < 1 ∨ (e.data.chunks.length : Int) < c) →
          jump_command e c = e) ∧
    (∀ (e : Env) (k : Int), (setChunkSize e k).data.chunk_size = max 1 (min 50 k)) := by
  refine ⟨fun e t d hh mm hp => ?_, fun e c hc => ?_, fun e k => rfl⟩
  · unfold set_time
    rw [hp]
  · unfold jump_command
    by_cases h0 : (e.data.chunks.length : Int) = 0
    · rw [if_pos h0]
    · rw [if_neg h0, if_pos (hc.resolve_left h0)]

theorem C9_witness :
    (parseHHMM (str "25:00") = none ∧ set_time demoEnv (str "25:00") 0 9 30 = demoEnv) ∧
    jump_command demoEnv 5 = demoEnv ∧
    (setChunkSize demoEnv 7).data.chunk_size = max 1 (min 50 7) :=
  ⟨⟨by decide, C9_validation_no_mutation.1 demoEnv (str "25:00") 0 9 30 (by decide)⟩,
   C9_validation_no_mutation.2.1 demoEnv 5 (by decide),
   C9_validation_no_mutation.2.2 demoEnv 7⟩

/-- C10: re-chunking the empty chunk list yields the one-element list holding
the empty string, so re-chunking a session with no chunks makes `len(chunks)`
equal to 1. -/
theorem C10_rebuild_empty :
    (∀ k : Int, rebuild_chunks_from_existing [] k = [[]]) ∧
    (∀ (e : Env) (k : Int), e.data.chunks = [] → ((setChunkSize e k).data.chunks).length = 1) := by
  have h1 : ∀ k : Int, rebuild_chunks_from_existing [] k = [[]] := by
    intro k
    show chunk_paragraphs (pySplit nn (pyJoin nn [])) k = [[]]
    rw [show pySplit nn (pyJoin nn ([] : List Str)) = [[]] from rfl,
      chunk_paragraphs_single_empty]
  refine ⟨h1, fun e k hch => ?_⟩
  rw [(setChunkSize_fields e k).2.1, hch, h1]
  rfl

theorem C10_witness :
    demoEmptyEnv.data.chunks = [] ∧ ((setChunkSize demoEmptyEnv 5).data.chunks).length = 1 :=
  ⟨rfl, C10_rebuild_empty.2 demoEmptyEnv 5 rfl⟩

/-! ## lemmas about split and join (claim C7) -/

lemma splitAux_fuel_eq (sep : Str) (hsep : sep ≠ []) :
    ∀ (f1 f2 : Nat) (cur s : Str), s.length < f1 → s.length < f2 →
      splitAux sep f1 cur s = splitAux sep f2 cur s := by
  intro f1
  induction f1 with
  | zero => intro f2 cur s h1 _; omega
  | succ g ih =>
    intro f2 cur s h1 h2
    obtain ⟨h, rfl⟩ : ∃ h, f2 = h + 1 := ⟨f2 - 1, by omega⟩
    rcases s with _ | ⟨c, rest⟩
    · rfl
    · simp only [List.length_cons] at h1 h2
      have hdrop : ((c :: rest).drop sep.length).length ≤ rest.length := by
        rcases sep with _ | ⟨a, as⟩
        · exact absurd rfl hsep
        · simp only [List.length_drop, List.length_cons]
          omega
      show splitAux sep (g + 1) cur (c :: rest) = splitAux sep (h + 1) cur (c :: rest)
      unfold splitAux
      by_cases hp : sep ≠ [] ∧ sep.isPrefixOf (c :: rest)
      · rw [if_pos hp, if_pos hp]
        congr 1
        exact ih h [] _ (by omega) (by omega)
      · rw [if_neg hp, if_neg hp]
        exact ih h (c :: cur) rest (by omega) (by omega)

lemma splitAux_no_occurrence (sep : Str) :
    ∀ (s cur : Str) (f : Nat), s.length < f → containsSub sep s = false →
      splitAux sep f cur s = [cur.reverse ++ s] := by
  intro s
  induction s with
  | nil =>
    intro cur f hf _
    obtain ⟨g, rfl⟩ : ∃ g, f = g + 1 := ⟨f - 1, by omega⟩
    simp [splitAux]
  | cons c rest ih =>
    intro cur f hf hocc
    obtain ⟨g, rfl⟩ : ∃ g, f = g + 1 := ⟨f - 1, by omega⟩
    unfold containsSub at hocc
    rw [Bool.or_eq_false_iff] at hocc
    show splitAux sep (g + 1) cur (c :: rest) = [cur.reverse ++ c :: rest]
    unfold splitAux
    rw [if_neg (fun hp => by rw [hp.2] at hocc; simp at hocc)]
    rw [ih (c :: cur) g (by simp at hf; omega) hocc.2]
    simp

lemma splitAux_through (r : Str) :
    ∀ (x cur : Str) (f : Nat), x.length + 2 + r.length < f →
      containsSub nn x = false → x.getLast? ≠ some '\n' →
      splitAux nn f cur (x ++ nn ++ r) = (cur.reverse ++ x) :: pySplit nn r := by
  intro x
  induction x with
  | nil =>
    intro cur f hf _ _
    obtain ⟨g, rfl⟩ : ∃ g, f = g + 1 := ⟨f - 1, by omega⟩
    show splitAux nn (g + 1) cur ('\n' :: '\n' :: r) = (cur.reverse ++ []) :: pySplit nn r
    unfold splitAux
    rw [if_pos ⟨by decide, by simp [nn, List.isPrefixOf]⟩]
    have hdrop : (('\n' :: '\n' :: r).drop nn.length) = r := rfl
    rw [hdrop, splitAux_fuel_eq nn (by decide) g (r.length + 1) [] r (by simp at hf; omega)
      (Nat.lt_succ_self _)]
    simp [pySplit]
  | cons c x' ih =>
    intro cur f hf hocc hlast
    obtain ⟨g, rfl⟩ : ∃ g, f = g + 1 := ⟨f - 1, by omega⟩
    unfold containsSub at hocc
    rw [Bool.or_eq_false_iff] at hocc
    show splitAux nn (g + 1) cur (c :: (x' ++ nn ++ r)) = (cur.reverse ++ c :: x') :: pySplit nn r
    unfold splitAux
    rw [if_neg ?hno]
    case hno =>
      rintro ⟨-, hp⟩
      rcases x' with _ | ⟨d, x''⟩
      · simp only [List.nil_append, nn, List.isPrefixOf, Bool.and_eq_true, beq_iff_eq] at hp
        obtain ⟨hc, -⟩ := hp
        cases hc
        exact hlast (by simp)
      · simp only [List.cons_append, nn, List.isPrefixOf, Bool.and_eq_true, beq_iff_eq] at hp
        obtain ⟨hc, hd, -⟩ := hp
        cases hc
        cases hd
        have hpre : nn.isPrefixOf ('\n' :: '\n' :: x'') = true := by
          simp [nn, List.isPrefixOf]
        rw [hpre] at hocc
        exact absurd hocc.1 (by simp)
    have hlast' : x'.getLast? ≠ some '\n' := by
      rcases x' with _ | ⟨d, x''⟩
      · simp
      · rwa [List.getLast?_cons_cons] at hlast
    have hocc' : containsSub nn x' = false := hocc.2
    rw [ih (c :: cur) g (by simp at hf; omega) hocc' hlast']
    simp

lemma pySplit_pyJoin (P : List Str) (hP : P ≠ [])
    (hok : ∀ x ∈ P, containsSub nn x = false ∧ x.getLast? ≠ some '\n') :
    pySplit nn (pyJoin nn P) = P := by
  induction P with
  | nil => exact absurd rfl hP
  | cons x P' ih =>
    rcases P' with _ | ⟨y, P''⟩
    · show pySplit nn (pyJoin nn [x]) = [x]
      show splitAux nn (x.length + 1) [] x = [x]
      rw [splitAux_no_occurrence nn x [] (x.length + 1) (Nat.lt_succ_self _)
        (hok x (by simp)).1]
      simp
    · show pySplit nn (x ++ nn ++ pyJoin nn (y :: P'')) = x :: y :: P''
      show splitAux nn ((x ++ nn ++ pyJoin nn (y :: P'')).length + 1) []
        (x ++ nn ++ pyJoin nn (y :: P'')) = x :: y :: P''
      rw [splitAux_through (pyJoin nn (y :: P'')) x []
        ((x ++ nn ++ pyJoin nn (y :: P'')).length + 1)
        (by simp [nn]; omega) (hok x (by simp)).1 (hok x (by simp)).2]
      simp only [List.reverse_nil, List.nil_append]
      congr 1
      exact ih (by simp) (fun z hz => hok z (List.mem_cons_of_mem _ hz))

lemma pyJoin_append (A B : List Str) (hA : A ≠ []) (hB : B ≠ []) :
    pyJoin nn (A ++ B) = pyJoin nn A ++ nn ++ pyJoin nn B := by
  induction A with
  | nil => exact absurd rfl hA
  | cons x A' ih =>
    rcases A' with _ | ⟨z, A''⟩
    · rcases B with _ | ⟨b, B'⟩
      · exact absurd rfl hB
      · rfl
    · show pyJoin nn (x :: (z :: A'' ++ B)) = (x ++ nn ++ pyJoin nn (z :: A'')) ++ nn ++ pyJoin nn B
      have hstep : pyJoin nn (x :: (z :: A'' ++ B)) = x ++ nn ++ pyJoin nn (z :: A'' ++ B) := by
        rcases B with _ | ⟨b, B'⟩
        · exact absurd rfl hB
        · rfl
      rw [hstep, ih (by simp)]
      simp [List.append_assoc]

lemma chunksEveryAux_nil {α : Type} (n f : Nat) : chunksEveryAux n f ([] : List α) = [] := by
  cases f <;> rfl

lemma chunksEveryAux_ne_nil {α : Type} (n f : Nat) (l : List α) (hl : l ≠ []) :
    chunksEveryAux n f l ≠ [] := by
  rcases l with _ | ⟨a, t⟩
  · exact absurd rfl hl
  · rcases f with _ | g <;> simp [chunksEveryAux]

lemma pyJoin_chunksEveryAux (ns : Nat) (hns : 1 ≤ ns) :
    ∀ (f : Nat) (P : List Str),
      pyJoin nn ((chunksEveryAux ns f P).map (pyJoin nn)) = pyJoin nn P := by
  intro f
  induction f with
  | zero =>
    intro P
    rcases P with _ | ⟨a, t⟩
    · rfl
    · rfl
  | succ g ih =>
    intro P
    rcases P with _ | ⟨a, t⟩
    · rfl
    · show pyJoin nn (((a :: t).take ns :: chunksEveryAux ns g ((a :: t).drop ns)).map (pyJoin nn))
        = pyJoin nn (a :: t)
      cases hdrop : (a :: t).drop ns with
      | nil =>
        have hlen : (a :: t).length ≤ ns := by
          have := congrArg List.length hdrop
          simp only [List.length_drop, List.length_nil] at this
          omega
        have htake : (a :: t).take ns = a :: t := List.take_of_length_le hlen
        rw [htake, chunksEveryAux_nil]
        rfl
      | cons b t' =>
        have hne : chunksEveryAux ns g (b :: t') ≠ [] := chunksEveryAux_ne_nil ns g _ (by simp)
        have hmapne : (chunksEveryAux ns g (b :: t')).map (pyJoin nn) ≠ [] := by
          simpa using hne
        have hcons : pyJoin nn (((a :: t).take ns :: chunksEveryAux ns g (b :: t')).map (pyJoin nn))
            = pyJoin nn ((a :: t).take ns) ++ nn ++
              pyJoin nn ((chunksEveryAux ns g (b :: t')).map (pyJoin nn)) := by
          rcases hm : (chunksEveryAux ns g (b :: t')).map (pyJoin nn) with _ | ⟨j, js⟩
          · exact absurd hm hmapne
          · simp only [List.map_cons, hm]
            rfl
        have htakene : (a :: t).take ns ≠ [] := by
          obtain ⟨m, rfl⟩ : ∃ m, ns = m + 1 := ⟨ns - 1, by omega⟩
          simp
        rw [hcons, ih (b :: t')]
        rw [← pyJoin_append _ _ htakene (by simp), ← hdrop, List.take_append_drop]

lemma pyJoin_chunk_paragraphs (P : List Str) (k : Int) :
    pyJoin nn (chunk_paragraphs P k) = pyJoin nn P := by
  show pyJoin nn ((chunksEvery (max 1 (min 50 k)).toNat P).map (pyJoin nn)) = pyJoin nn P
  exact pyJoin_chunksEveryAux _ (int_one_le_clamp_toNat k) _ P

/-- C7 (amended): for every non-empty paragraph sequence in which no paragraph
contains the blank-line separator and no paragraph ends in a newline,
re-splitting the joined chunks recovers exactly the original paragraphs, and
re-chunking at the same size reproduces the same chunks. -/
theorem C7_rechunk_roundtrip (P : List Str) (k : Int) (hP : P ≠ [])
    (hok : ∀ x ∈ P, containsSub nn x = false ∧ x.getLast? ≠ some '\n') :
    pySplit nn (pyJoin nn (chunk_paragraphs P k)) = P ∧
    rebuild_chunks_from_existing (chunk_paragraphs P k) k = chunk_paragraphs P k := by
  have hsplit : pySplit nn (pyJoin nn (chunk_paragraphs P k)) = P := by
    rw [pyJoin_chunk_paragraphs]
    exact pySplit_pyJoin P hP hok
  refine ⟨hsplit, ?_⟩
  show chunk_paragraphs (pySplit nn (pyJoin nn (chunk_paragraphs P k))) k = chunk_paragraphs P k
  rw [hsplit]

/-- C7 as stated is false: the empty paragraph sequence and paragraph
sequences with a newline at a paragraph boundary both break the round-trip,
while satisfying the claim's no-embedded-separator hypothesis. -/
theorem C7_counterexample :
    ((∀ x ∈ ([] : List Str), containsSub nn x = false) ∧
      rebuild_chunks_from_existing (chunk_paragraphs [] 3) 3 ≠ chunk_paragraphs [] 3) ∧
    ((∀ x ∈ [str "a\n", str "b"], containsSub nn x = false) ∧
      rebuild_chunks_from_existing (chunk_paragraphs [str "a\n", str "b"] 1) 1 ≠
        chunk_paragraphs [str "a\n", str "b"] 1) := by
  refine ⟨⟨by simp, by decide⟩, by decide, by decide⟩

theorem C7_witness :
    pySplit nn (pyJoin nn (chunk_paragraphs [str "alpha", str "beta"] 1)) =
      [str "alpha", str "beta"] :=
  (C7_rechunk_roundtrip [str "alpha", str "beta"] 1 (by decide) (by decide)).1

/-! ## lemmas about the segmenter (claim C8) -/

lemma pySplitWsAux_pieces :
    ∀ (f : Nat) (s : Str), ∀ r ∈ pySplitWsAux f s,
      r ≠ [] ∧ r.all (fun c => !isPySpace c) = true := by
  intro f
  induction f with
  | zero => intro s r hr; simp [pySplitWsAux] at hr
  | succ g ih =>
    intro s r hr
    rcases s with _ | ⟨c, rest⟩
    · simp [pySplitWsAux] at hr
    · unfold pySplitWsAux at hr
      by_cases hc : isPySpace c
      · rw [if_pos hc] at hr
        exact ih rest r hr
      · rw [if_neg hc] at hr
        rcases List.mem_cons.mp hr with rfl | hr'
        · refine ⟨by simp, ?_⟩
          rw [List.all_cons]
          refine Bool.and_eq_true_iff.mpr ⟨by simpa using hc, ?_⟩
          rw [List.all_eq_true]
          intro x hx
          have := List.mem_takeWhile_imp hx
          simpa using this
        · exact ih _ r hr'

/-- Whether two adjacent spaces occur. -/
def hasDoubleSpace : Str → Bool
  | a :: b :: t => (a == ' ' && b == ' ') || hasDoubleSpace (b :: t)
  | _ => false

lemma hasDoubleSpace_cons_of_ne (c : Char) (X : Str) (hc : c ≠ ' ') :
    hasDoubleSpace (c :: X) = hasDoubleSpace X := by
  cases X with
  | nil => rfl
  | cons b t =>
    show ((c == ' ' && b == ' ') || hasDoubleSpace (b :: t)) = hasDoubleSpace (b :: t)
    simp [hc]

lemma char_ne_space_of_not_space (c : Char) (hc : isPySpace c = false) : c ≠ ' ' := by
  intro h
  rw [h] at hc
  simp [isPySpace] at hc

lemma hasDoubleSpace_append (p : Str) (s : Str)
    (hp : p.all (fun c => !isPySpace c) = true) (hs : hasDoubleSpace s = false) :
    hasDoubleSpace (p ++ s) = false := by
  induction p with
  | nil => simpa using hs
  | cons c p' ih =>
    rw [List.all_cons, Bool.and_eq_true_iff] at hp
    have hc : c ≠ ' ' := char_ne_space_of_not_space c (by simpa using hp.1)
    rw [List.cons_append, hasDoubleSpace_cons_of_ne c _ hc]
    exact ih hp.2

lemma hasDoubleSpace_of_spaceless (p : Str) (hp : p.all (fun c => !isPySpace c) = true) :
    hasDoubleSpace p = false := by
  have := hasDoubleSpace_append p [] hp rfl
  rwa [List.append_nil] at this

lemma hasDoubleSpace_join (pieces : List Str)
    (h : ∀ r ∈ pieces, r ≠ [] ∧ r.all (fun c => !isPySpace c) = true) :
    hasDoubleSpace (pyJoin [' '] pieces) = false ∧
      (∀ c X, pyJoin [' '] pieces = c :: X → c ≠ ' ') := by
  induction pieces with
  | nil => exact ⟨rfl, fun c X hcx => absurd hcx (by simp [pyJoin])⟩
  | cons p rest ih =>
    obtain ⟨hpne, hpsp⟩ := h p (by simp)
    rcases rest with _ | ⟨q, rest'⟩
    · refine ⟨hasDoubleSpace_of_spaceless p hpsp, fun c X hcx => ?_⟩
      have : isPySpace c = false := by
        have := List.all_eq_true.mp hpsp c (by rw [show pyJoin [' '] [p] = p from rfl] at hcx; simp [hcx])
        simpa using this
      exact char_ne_space_of_not_space c this
    · obtain ⟨ihd, ihh⟩ := ih (fun r hr => h r (List.mem_cons_of_mem _ hr))
      have hqne : q ≠ [] := (h q (by simp)).1
      have hJne : pyJoin [' '] (q :: rest') ≠ [] := by
        rcases hq : q with _ | ⟨c, q'⟩
        · exact absurd hq hqne
        · rcases rest' with _ | ⟨z, zs⟩ <;> simp [pyJoin, hq]
      have hjoin : pyJoin [' '] (p :: q :: rest') = p ++ ' ' :: pyJoin [' '] (q :: rest') := by
        show p ++ [' '] ++ pyJoin [' '] (q :: rest') = p ++ ' ' :: pyJoin [' '] (q :: rest')
        simp
      have hmid : hasDoubleSpace (' ' :: pyJoin [' '] (q :: rest')) = false := by
        rcases hJ : pyJoin [' '] (q :: rest') with _ | ⟨c, X⟩
        · rfl
        · have hc : c ≠ ' ' := ihh c X hJ
          show ((' ' == ' ' && c == ' ') || hasDoubleSpace (c :: X)) = false
          have hcb : (c == ' ') = false := by simpa using hc
          rw [hcb]
          rw [← hJ, ihd]
          rfl
      refine ⟨?_, fun c X hcx => ?_⟩
      · rw [hjoin]
        exact hasDoubleSpace_append p _ hpsp hmid
      · rw [hjoin] at hcx
        rcases hp : p with _ | ⟨c0, p0⟩
        · exact absurd hp hpne
        · rw [hp] at hcx
          simp only [List.cons_append] at hcx
          have hc0 : c = c0 := (List.cons.injEq _ _ _ _ ▸ hcx).1.symm
          have : isPySpace c0 = false := by
            have := List.all_eq_true.mp hpsp c0 (by simp [hp])
            simpa using this
          rw [hc0]
          exact char_ne_space_of_not_space c0 this

lemma containsSub_tail_false {pat : Str} {c : Char} {t : Str}
    (h : containsSub pat (c :: t) = false) : containsSub pat t = false := by
  unfold containsSub at h
  exact (Bool.or_eq_false_iff.mp h).2

lemma containsSub_three_of_no_double (c : Char) :
    ∀ s : Str, hasDoubleSpace s = false → containsSub [c, ' ', ' '] s = false := by
  intro s
  induction s with
  | nil => intro _; rfl
  | cons a t ih =>
    intro hd
    have hdt : hasDoubleSpace t = false := by
      rcases t with _ | ⟨b, t'⟩
      · rfl
      · exact (Bool.or_eq_false_iff.mp hd).2
    unfold containsSub
    rw [ih hdt, Bool.or_false]
    rcases t with _ | ⟨b, t'⟩
    · simp [List.isPrefixOf]
    · rcases t' with _ | ⟨b', t''⟩
      · simp [List.isPrefixOf]
      · by_cases hb : b = ' '
        · by_cases hb' : b' = ' '
          · exfalso
            have h1 : (b == ' ' && b' == ' ') = false := by
              have hform : ((b == ' ' && b' == ' ') || hasDoubleSpace (b' :: t'')) = false := hdt
              exact (Bool.or_eq_false_iff.mp hform).1
            rw [hb, hb'] at h1
            simp at h1
          · have hbb : (' ' == b') = false := by simpa using Ne.symm hb'
            simp [List.isPrefixOf, hbb]
        · have hbb : (' ' == b) = false := by simpa using Ne.symm hb
          simp [List.isPrefixOf, hbb]

lemma containsSub_false_of_head_notMem {pc : Char} {pr s : Str}
    (h : pc ∉ s) : containsSub (pc :: pr) s = false := by
  induction s with
  | nil => rfl
  | cons a t ih =>
    unfold containsSub
    rw [ih (fun hm => h (List.mem_cons_of_mem _ hm)), Bool.or_false]
    show ((pc == a) && _) = false
    have : (pc == a) = false := by
      simp only [beq_eq_false_iff_ne, ne_eq]
      intro hpc
      exact h (hpc ▸ List.mem_cons_self a t)
    rw [this, Bool.false_and]

lemma pyReplaceAux_no_occurrence (old new : Str) :
    ∀ (f : Nat) (s : Str), containsSub old s = false → pyReplaceAux old new f s = s := by
  intro f
  induction f with
  | zero => intro s _; rfl
  | succ g ih =>
    intro s hocc
    rcases s with _ | ⟨c, rest⟩
    · rfl
    · unfold pyReplaceAux
      unfold containsSub at hocc
      rw [Bool.or_eq_false_iff] at hocc
      rw [if_neg (fun hp => by rw [hp.2] at hocc; simp at hocc)]
      rw [ih rest hocc.2]

lemma pyReplace_no_occurrence (old new s : Str) (hocc : containsSub old s = false) :
    pyReplace old new s = s :=
  pyReplaceAux_no_occurrence old new s.length s hocc

lemma pySplit_no_occurrence (sep s : Str) (hocc : containsSub sep s = false) :
    pySplit sep s = [s] := by
  unfold pySplit
  rw [splitAux_no_occurrence sep s [] (s.length + 1) (Nat.lt_succ_self _) hocc]
  rfl

lemma normalizeWs_no_double (t : Str) : hasDoubleSpace (normalizeWs t) = false :=
  (hasDoubleSpace_join (pySplitWs t) (fun r hr => pySplitWsAux_pieces t.length t r hr)).1

lemma mem_pyJoin {c : Char} {sep : Str} :
    ∀ {xs : List Str}, c ∈ pyJoin sep xs → c ∈ sep ∨ ∃ x ∈ xs, c ∈ x := by
  intro xs
  induction xs with
  | nil => intro h; simp [pyJoin] at h
  | cons x rest ih =>
    intro h
    rcases rest with _ | ⟨y, rs⟩
    · exact Or.inr ⟨x, by simp, h⟩
    · rw [show pyJoin sep (x :: y :: rs) = x ++ sep ++ pyJoin sep (y :: rs) from rfl] at h
      rcases List.mem_append.mp h with h1 | h2
      · rcases List.mem_append.mp h1 with hx | hs
        · exact Or.inr ⟨x, by simp, hx⟩
        · exact Or.inl hs
      · rcases ih h2 with hs | ⟨z, hz, hcz⟩
        · exact Or.inl hs
        · exact Or.inr ⟨z, List.mem_cons_of_mem _ hz, hcz⟩

lemma newline_not_mem_normalizeWs (t : Str) : '\n' ∉ normalizeWs t := by
  intro hmem
  unfold normalizeWs at hmem
  rcases mem_pyJoin hmem with hs | ⟨x, hx, hcx⟩
  · simp at hs
  · have hpiece := pySplitWsAux_pieces t.length t x hx
    have h2 := List.all_eq_true.mp hpiece.2 _ hcx
    exact absurd h2 (by decide)

lemma firstPassParts_eq (t : Str) : firstPassParts t = [normalizeWs t] := by
  unfold firstPassParts
  have hnd := normalizeWs_no_double t
  have h1 : pyReplace (str ".  ") (str ".\n\n") (normalizeWs t) = normalizeWs t :=
    pyReplace_no_occurrence _ _ _ (containsSub_three_of_no_double '.' _ hnd)
  have h2 : pyReplace (str "!  ") (str "!\n\n") (normalizeWs t) = normalizeWs t :=
    pyReplace_no_occurrence _ _ _ (containsSub_three_of_no_double '!' _ hnd)
  have h3 : pyReplace (str "?  ") (str "?\n\n") (normalizeWs t) = normalizeWs t :=
    pyReplace_no_occurrence _ _ _ (containsSub_three_of_no_double '?' _ hnd)
  rw [h1, h2, h3]
  exact pySplit_no_occurrence nn _ (containsSub_false_of_head_notMem (newline_not_mem_normalizeWs t))

lemma split_into_paragraphs_eq_fallback (t : Str) :
    split_into_paragraphs t = sentenceParagraphs t := by
  unfold split_into_paragraphs
  have hlen : (firstPassParagraphs t).length ≤ 1 := by
    unfold firstPassParagraphs
    rw [firstPassParts_eq]
    rcases h : (if pyStrip (normalizeWs t) ≠ [] ∧ 10 < (pyStrip (normalizeWs t)).length then
        some (pyStrip (normalizeWs t)) else none) with _ | v
    · simp [List.filterMap, h]
    · simp [List.filterMap, h]
  rw [if_pos hlen]

lemma dropWhile_head_not {p : Char → Bool} :
    ∀ (l : List Char) (c : Char) (t : List Char), l.dropWhile p = c :: t → p c = false := by
  intro l
  induction l with
  | nil => intro c t h; simp at h
  | cons a l' ih =>
    intro c t h
    by_cases ha : p a = true
    · rw [List.dropWhile_cons_of_pos ha] at h
      exact ih c t h
    · rw [List.dropWhile_cons_of_neg ha] at h
      obtain ⟨rfl, -⟩ := List.cons.injEq _ _ _ _ ▸ h
      simpa using ha

lemma dropWhile_append_singleton {p : Char → Bool} (c : Char) (hc : p c = false) :
    ∀ l : List Char, (l ++ [c]).dropWhile p = l.dropWhile p ++ [c] := by
  intro l
  induction l with
  | nil => simp [List.dropWhile, hc]
  | cons a l' ih =>
    by_cases ha : p a = true
    · rw [List.cons_append, List.dropWhile_cons_of_pos ha, List.dropWhile_cons_of_pos ha, ih]
    · rw [List.cons_append, List.dropWhile_cons_of_neg ha, List.dropWhile_cons_of_neg ha,
        List.cons_append]

lemma pyRstrip_cons (c : Char) (t : Str) (hc : isPySpace c = false) :
    pyRstrip (c :: t) = c :: pyRstrip t := by
  unfold pyRstrip
  rw [List.reverse_cons, dropWhile_append_singleton c hc t.reverse, List.reverse_append]
  rfl

lemma pyStrip_not_all_space (s : Str) (h : pyStrip s ≠ []) :
    (pyStrip s).all isPySpace = false := by
  unfold pyStrip at h ⊢
  cases hd : s.dropWhile isPySpace with
  | nil =>
    rw [hd] at h
    exact absurd rfl h
  | cons c t =>
    have hc : isPySpace c = false := dropWhile_head_not _ _ _ hd
    rw [pyRstrip_cons c t hc]
    simp [hc]

lemma sentenceParagraphs_props (t : Str) :
    ∀ p ∈ sentenceParagraphs t, p ≠ [] ∧ ¬(p.all isPySpace = true) := by
  intro p hp
  unfold sentenceParagraphs at hp
  rw [List.mem_filterMap] at hp
  obtain ⟨s, -, hs⟩ := hp
  by_cases hcond : pyStrip s ≠ [] ∧ 10 < (pyStrip s).length
  · rw [if_pos hcond] at hs
    obtain rfl : pyStrip s = p := Option.some.inj hs
    exact ⟨hcond.1, by rw [pyStrip_not_all_space s hcond.1]; simp⟩
  · rw [if_neg hcond] at hs
    exact absurd hs (by simp)

/-- C8 (amended): if the input has at least one qualifying span at the
sentence level of the fallback split (a sentence whose stripped length
exceeds 10), the segmenter's output is non-empty; and every output paragraph
is neither empty nor whitespace-only.  The paragraph-level first pass never
yields more than one span because whitespace normalization removes the double
spaces it splits on, so the sentence-level fallback always decides the
output. -/
theorem C8_segmenter_output (t : Str) :
    ((∃ s ∈ sentenceSpans t, pyStrip s ≠ [] ∧ 10 < (pyStrip s).length) →
        split_into_paragraphs t ≠ []) ∧
    (∀ p ∈ split_into_paragraphs t, p ≠ [] ∧ ¬(p.all isPySpace = true)) := by
  rw [split_into_paragraphs_eq_fallback]
  refine ⟨fun ⟨s, hmem, hcond⟩ => ?_, sentenceParagraphs_props t⟩
  have : pyStrip s ∈ sentenceParagraphs t := by
    unfold sentenceParagraphs
    rw [List.mem_filterMap]
    exact ⟨s, hmem, by rw [if_pos hcond]⟩
  exact List.ne_nil_of_mem this

/-- C8 as stated is false: for `"aaaaa. bbbbb."` the first-pass split yields a
single qualifying span of length 13, yet the segmenter's output is empty,
because the fallback re-splits at sentence level where every span is too
short. -/
theorem C8_counterexample :
    (∃ p ∈ firstPassParts (str "aaaaa. bbbbb."), pyStrip p ≠ [] ∧ 10 < (pyStrip p).length) ∧
    split_into_paragraphs (str "aaaaa. bbbbb.") = [] := by
  constructor
  · decide
  · decide

theorem C8_witness :
    split_into_paragraphs demoText ≠ [] ∧
    (∀ p ∈ split_into_paragraphs demoText, p ≠ [] ∧ ¬(p.all isPySpace = true)) :=
  ⟨(C8_segmenter_output demoText).1 (by decide), (C8_segmenter_output demoText).2⟩

/-! ## lemmas about the renderer and the 2000-character limit (claim C6) -/

lemma toDigitsCore_length_le :
    ∀ (f n : Nat) (ds : List Char) (k : Nat), n < 10 ^ k → 1 ≤ k → n + 1 ≤ f →
      (Nat.toDigitsCore 10 f n ds).length ≤ k + ds.length := by
  intro f
  induction f with
  | zero => intro n ds k _ _ hf; omega
  | succ g ih =>
    intro n ds k hk hk1 hf
    unfold Nat.toDigitsCore
    by_cases hz : n / 10 = 0
    · rw [if_pos hz]
      simp only [List.length_cons]
      omega
    · rw [if_neg hz]
      have h10 : 10 ≤ n := by
        by_contra hlt
        exact hz (Nat.div_eq_of_lt (by omega))
      have hk2 : 2 ≤ k := by
        by_contra hlt
        have hk1' : k = 1 := by omega
        rw [hk1'] at hk
        norm_num at hk
        omega
      have hdiv : n / 10 < 10 ^ (k - 1) := by
        have hpow : 10 ^ k = 10 ^ (k - 1) * 10 := by
          rw [← pow_succ]
          congr 1
          omega
        rw [Nat.div_lt_iff_lt_mul (by omega)]
        omega
      have := ih (n / 10) (Nat.digitChar (n % 10) :: ds) (k - 1) hdiv (by omega)
        (by
          have : n / 10 < n := Nat.div_lt_self (by omega) (by omega)
          omega)
      simp only [List.length_cons] at this
      omega

lemma natStr_length_le (n k : Nat) (hk : n < 10 ^ k) (hk1 : 1 ≤ k) :
    (natStr n).length ≤ k := by
  show (Nat.toDigits 10 n).length ≤ k
  unfold Nat.toDigits
  have := toDigitsCore_length_le (n + 1) n [] k hk hk1 (le_refl _)
  simpa using this

lemma pyJoin_sep_append (sep : Str) (A B : List Str) (hA : A ≠ []) (hB : B ≠ []) :
    pyJoin sep (A ++ B) = pyJoin sep A ++ sep ++ pyJoin sep B := by
  induction A with
  | nil => exact absurd rfl hA
  | cons x A' ih =>
    rcases A' with _ | ⟨z, A''⟩
    · rcases B with _ | ⟨b, B'⟩
      · exact absurd rfl hB
      · rfl
    · show pyJoin sep (x :: (z :: A'' ++ B)) = (x ++ sep ++ pyJoin sep (z :: A'')) ++ sep ++ pyJoin sep B
      have hstep : pyJoin sep (x :: (z :: A'' ++ B)) = x ++ sep ++ pyJoin sep (z :: A'' ++ B) := by
        rcases B with _ | ⟨b, B'⟩
        · exact absurd rfl hB
        · rfl
      rw [hstep, ih (by simp)]
      simp [List.append_assoc]

lemma joinNL_append_singleton (xs : List Str) (y : Str) (hxs : xs ≠ []) :
    joinNL (xs ++ [y]) = joinNL xs ++ '\n' :: y := by
  unfold joinNL
  rw [pyJoin_sep_append ['\n'] xs [y] hxs (by simp)]
  rw [show pyJoin ['\n'] [y] = y from rfl]
  simp

lemma joinNL_append_singleton_length (xs : List Str) (y : Str) (hxs : xs ≠ []) :
    (joinNL (xs ++ [y])).length = (joinNL xs).length + 1 + y.length := by
  rw [joinNL_append_singleton xs y hxs]
  simp
  omega

lemma format_header_ne_nil (idx p : Nat) : format_header idx p ≠ [] := by
  unfold format_header
  simp

lemma joinNL_format_header_length (idx p : Nat) :
    (joinNL (format_header idx p)).length =
      12 + (natStr (idx + 1)).length + (if p = 0 then 0 else 13 + (natStr p).length) := by
  have h1 : (str "> *chunk ").length = 9 := rfl
  have h2 : (str " (continued ").length = 12 := rfl
  have h3 : (str ")").length = 1 := rfl
  have h4 : (str "*").length = 1 := rfl
  have h5 : (str ">").length = 1 := rfl
  unfold format_header joinNL
  by_cases hp : p = 0
  · subst hp
    simp [pyJoin, h1, h4, h5]
    omega
  · simp only [if_neg hp, pyJoin]
    simp [List.length_append, h1, h2, h3, h4, h5]
    omega

lemma pyJoin_nil_sep_length : ∀ (pieces : List Str), (pyJoin [] pieces).length = charSum pieces := by
  intro pieces
  induction pieces with
  | nil => rfl
  | cons x rest ih =>
    rcases rest with _ | ⟨y, rs⟩
    · show x.length = charSum [x]
      simp [charSum]
    · show (x ++ [] ++ pyJoin [] (y :: rs)).length = charSum (x :: y :: rs)
      rw [List.append_nil, List.length_append, ih]
      simp [charSum]

lemma greedyPack_len_le (width : Nat) :
    ∀ (cs : List Str) (cur_len : Nat), cur_len ≤ width →
      (greedyPack width cur_len cs).2.1 ≤ width := by
  intro cs
  induction cs with
  | nil => intro cur_len h; exact h
  | cons ch rest ih =>
    intro cur_len h
    unfold greedyPack
    by_cases hfit : cur_len + ch.length ≤ width
    · rw [if_pos hfit]
      exact ih (cur_len + ch.length) hfit
    · rw [if_neg hfit]
      exact h

lemma greedyPack_charSum (width : Nat) :
    ∀ (cs : List Str) (cur_len : Nat),
      (greedyPack width cur_len cs).2.1 = cur_len + charSum (greedyPack width cur_len cs).1 := by
  intro cs
  induction cs with
  | nil => intro cur_len; simp [greedyPack, charSum]
  | cons ch rest ih =>
    intro cur_len
    unfold greedyPack
    by_cases hfit : cur_len + ch.length ≤ width
    · rw [if_pos hfit]
      simp only [charSum, List.map_cons, List.sum_cons]
      rw [ih (cur_len + ch.length)]
      simp [charSum]
      omega
    · rw [if_neg hfit]
      simp [charSum]

lemma charSum_dropLast (l : List Str) : charSum l.dropLast ≤ charSum l := by
  rcases l with _ | ⟨x, t⟩
  · simp
  · have : (x :: t).dropLast ++ [(x :: t).getLast (by simp)] = x :: t :=
      List.dropLast_append_getLast (by simp)
    have h2 := congrArg charSum this
    simp only [charSum, List.map_append, List.sum_append] at h2
    show charSum ((x :: t).dropLast) ≤ charSum (x :: t)
    simp only [charSum] at *
    omega

lemma wrapStep_line_le (width : Nat) (hw : 1 ≤ width) (b : Bool) (chunks : List Str)
    (line : Str) (rest : List Str) (h : wrapStep width b chunks = (some line, rest)) :
    line.length ≤ width := by
  unfold wrapStep at h
  dsimp only at h
  set cs := (match chunks with
    | ws :: rest => if b = true ∧ pyStrip ws = [] then rest else chunks
    | [] => chunks) with hcs
  set g := greedyPack width 0 cs with hg
  have hglen : g.2.1 ≤ width := greedyPack_len_le width cs 0 (by omega)
  have hgsum : g.2.1 = charSum g.1 := by
    have := greedyPack_charSum width cs 0
    simpa using this
  set packed := (match g.2.2 with
    | ch :: rest2 =>
      if width < ch.length then
        (g.1 ++ [(handle_long_word width g.2.1 ch).1], (handle_long_word width g.2.1 ch).2 :: rest2)
      else (g.1, g.2.2)
    | [] => (g.1, ([] : List Str))) with hpacked
  have hpsum : charSum packed.1 ≤ width := by
    rw [hpacked]
    rcases hrest : g.2.2 with _ | ⟨ch, rest2⟩
    · dsimp only
      exact hgsum ▸ hglen
    · dsimp only
      by_cases hlong : width < ch.length
      · rw [if_pos hlong]
        have htake : (handle_long_word width g.2.1 ch).1.length ≤ width - g.2.1 := by
          unfold handle_long_word
          rw [if_neg (by omega)]
          exact List.length_take_le _ _
        have hchar : charSum g.1 = g.2.1 := hgsum.symm
        show charSum (g.1 ++ [(handle_long_word width g.2.1 ch).1]) ≤ width
        simp only [charSum, List.map_append, List.sum_append, List.map_cons, List.sum_cons,
          List.map_nil, List.sum_nil] at *
        omega
      · rw [if_neg hlong]
        exact hgsum ▸ hglen
  have hline : line.length ≤ charSum packed.1 := by
    rcases hlast : packed.1.getLast? with _ | lastp
    · rw [hlast] at h
      dsimp only at h
      rcases hcur : packed.1 with _ | ⟨z, zs⟩
      · rw [hcur] at h
        simp at h
      · rw [hcur] at h
        rw [if_neg (by simp : ¬(z :: zs = []))] at h
        obtain ⟨hl, -⟩ := Prod.mk.injEq _ _ _ _ ▸ h
        obtain rfl := Option.some.inj hl
        exact le_of_eq (pyJoin_nil_sep_length (z :: zs))
    · rw [hlast] at h
      dsimp only at h
      by_cases hws : pyStrip lastp = []
      · rw [if_pos hws] at h
        rcases hcur : packed.1.dropLast with _ | ⟨z, zs⟩
        · rw [hcur] at h
          simp at h
        · rw [hcur] at h
          rw [if_neg (by simp : ¬(z :: zs = []))] at h
          obtain ⟨hl, -⟩ := Prod.mk.injEq _ _ _ _ ▸ h
          obtain rfl := Option.some.inj hl
          rw [pyJoin_nil_sep_length, ← hcur]
          exact charSum_dropLast _
      · rw [if_neg hws] at h
        rcases hcur : packed.1 with _ | ⟨z, zs⟩
        · rw [hcur] at h
          simp at h
        · rw [hcur] at h
          rw [if_neg (by simp : ¬(z :: zs = []))] at h
          obtain ⟨hl, -⟩ := Prod.mk.injEq _ _ _ _ ▸ h
          obtain rfl := Option.some.inj hl
          exact le_of_eq (pyJoin_nil_sep_length (z :: zs))
  omega

lemma wrapDriver_line_le (width : Nat) (hw : 1 ≤ width) :
    ∀ (f : Nat) (b : Bool) (chunks : List Str),
      ∀ line ∈ wrapDriver width f b chunks, line.length ≤ width := by
  intro f
  induction f with
  | zero => intro b chunks line h; simp [wrapDriver] at h
  | succ g ih =>
    intro b chunks line h
    rcases chunks with _ | ⟨c, rest⟩
    · simp [wrapDriver] at h
    · unfold wrapDriver at h
      rcases hstep : wrapStep width b (c :: rest) with ⟨ol, rest2⟩
      rcases ol with _ | l
      · rw [hstep] at h
        exact ih b rest2 line h
      · rw [hstep] at h
        rcases List.mem_cons.mp h with rfl | h'
        · exact wrapStep_line_le width hw b (c :: rest) line rest2 hstep
        · exact ih true rest2 line h'

lemma wrapDriver_count_le (width : Nat) :
    ∀ (f : Nat) (b : Bool) (chunks : List Str), (wrapDriver width f b chunks).length ≤ f := by
  intro f
  induction f with
  | zero => intro b chunks; simp [wrapDriver]
  | succ g ih =>
    intro b chunks
    rcases chunks with _ | ⟨c, rest⟩
    · simp [wrapDriver]
    · unfold wrapDriver
      rcases hstep : wrapStep width b (c :: rest) with ⟨ol, rest2⟩
      rcases ol with _ | l
      · exact (ih b rest2).trans (by omega)
      · simpa using ih true rest2

lemma splitRunsAux_charSum : ∀ (f : Nat) (s : Str), charSum (splitRunsAux f s) ≤ s.length := by
  intro f
  induction f with
  | zero => intro s; exact Nat.zero_le _
  | succ g ih =>
    intro s
    rcases s with _ | ⟨c, rest⟩
    · exact Nat.zero_le _
    · unfold splitRunsAux
      simp only [charSum, List.map_cons, List.sum_cons, List.length_cons]
      have h1 := ih (rest.dropWhile (fun d => isPySpace d == isPySpace c))
      have h2 : (rest.takeWhile (fun d => isPySpace d == isPySpace c)).length +
          (rest.dropWhile (fun d => isPySpace d == isPySpace c)).length = rest.length := by
        rw [← List.length_append, List.takeWhile_append_dropWhile]
      simp only [charSum] at h1
      omega

lemma expandTabsAux_length : ∀ (s : Str) (col : Nat),
    (expandTabsAux s col).length ≤ 8 * s.length := by
  intro s
  induction s with
  | nil => intro col; simp [expandTabsAux]
  | cons c rest ih =>
    intro col
    unfold expandTabsAux
    by_cases ht : c = '\t'
    · rw [if_pos ht]
      have hpad : 8 - col % 8 ≤ 8 := by omega
      have := ih (col + (8 - col % 8))
      simp only [List.length_append, List.length_replicate, List.length_cons]
      omega
    · rw [if_neg ht]
      by_cases hn : c = '\n' || c = '\r'
      · rw [if_pos hn]
        have := ih 0
        simp only [List.length_cons]
        omega
      · rw [if_neg hn]
        have := ih (col + 1)
        simp only [List.length_cons]
        omega

lemma munge_whitespace_length (t : Str) : (munge_whitespace t).length ≤ 8 * t.length := by
  unfold munge_whitespace replaceWhitespace expandTabs
  rw [List.length_map]
  exact expandTabsAux_length t 0

lemma textwrap_wrap_count (t : Str) : (textwrap_wrap CHUNK_WRAP_WIDTH t).length ≤ 8 * t.length + 1 := by
  show (wrapDriver CHUNK_WRAP_WIDTH (charSum (splitRuns (munge_whitespace t)) + 1) false
    (splitRuns (munge_whitespace t))).length ≤ 8 * t.length + 1
  have h1 := wrapDriver_count_le CHUNK_WRAP_WIDTH
    (charSum (splitRuns (munge_whitespace t)) + 1) false (splitRuns (munge_whitespace t))
  have h2 : charSum (splitRuns (munge_whitespace t)) ≤ (munge_whitespace t).length :=
    splitRunsAux_charSum _ _
  have h3 := munge_whitespace_length t
  omega

lemma split_line_count (t : Str) : (split_line t).length ≤ 8 * t.length + 1 := by
  unfold split_line
  by_cases ht : t = []
  · rw [if_pos ht]
    simp
  · rw [if_neg ht]
    rcases hw : textwrap_wrap CHUNK_WRAP_WIDTH t with _ | ⟨l, ls⟩
    · simp
    · have := textwrap_wrap_count t
      rw [hw] at this
      simpa using this

lemma split_line_le (t : Str) : ∀ seg ∈ split_line t, seg.length ≤ 1900 := by
  intro seg hseg
  unfold split_line at hseg
  by_cases ht : t = []
  · rw [if_pos ht] at hseg
    simp at hseg
    simp [hseg]
  · rw [if_neg ht] at hseg
    rcases hw : textwrap_wrap CHUNK_WRAP_WIDTH t with _ | ⟨l, ls⟩
    · rw [hw] at hseg
      simp at hseg
      simp [hseg]
    · rw [hw] at hseg
      have := wrapDriver_line_le CHUNK_WRAP_WIDTH (by norm_num [CHUNK_WRAP_WIDTH])
        (charSum (splitRuns (munge_whitespace t)) + 1) false (splitRuns (munge_whitespace t)) seg
      rw [show wrapDriver CHUNK_WRAP_WIDTH (charSum (splitRuns (munge_whitespace t)) + 1) false
        (splitRuns (munge_whitespace t)) = textwrap_wrap CHUNK_WRAP_WIDTH t from rfl, hw] at this
      exact this hseg

lemma pySplitlinesAux_bounds :
    ∀ (f : Nat) (s cur : Str),
      (pySplitlinesAux f s cur).length ≤ s.length + 1 ∧
      charSum (pySplitlinesAux f s cur) ≤ s.length + cur.length := by
  intro f
  induction f with
  | zero =>
    intro s cur
    rcases s with _ | ⟨c, rest⟩
    · by_cases hc : cur = []
      · simp [pySplitlinesAux, hc, charSum]
      · simp only [pySplitlinesAux, if_neg hc]
        simp [charSum]
    · have heq : pySplitlinesAux 0 (c :: rest) cur = [cur.reverse ++ c :: rest] := by
        show (if cur.reverse ++ c :: rest = [] then [] else [cur.reverse ++ c :: rest]) = _
        rw [if_neg (by simp)]
      rw [heq]
      constructor
      · simp
      · simp [charSum]
        omega
  | succ g ih =>
    intro s cur
    rcases s with _ | ⟨c, rest⟩
    · by_cases hc : cur = []
      · simp [pySplitlinesAux, hc, charSum]
      · simp only [pySplitlinesAux, if_neg hc]
        simp [charSum]
    · unfold pySplitlinesAux
      by_cases h1 : (c = '\r' && rest.head? == some '\n') = true
      · rw [if_pos h1]
        obtain ⟨ihc, ihs⟩ := ih rest.tail []
        constructor
        · simp only [List.length_cons]
          have : rest.tail.length ≤ rest.length := by
            rcases rest with _ | ⟨d, r2⟩ <;> simp
          omega
        · simp only [charSum, List.map_cons, List.sum_cons]
          simp only [charSum, List.length_nil] at ihs
          have : rest.tail.length ≤ rest.length := by
            rcases rest with _ | ⟨d, r2⟩ <;> simp
          simp only [List.length_cons, List.length_reverse]
          omega
      · rw [if_neg h1]
        by_cases h2 : pyIsLineBreak c = true
        · rw [if_pos h2]
          obtain ⟨ihc, ihs⟩ := ih rest []
          constructor
          · simp only [List.length_cons]
            omega
          · simp only [charSum, List.map_cons, List.sum_cons]
            simp only [charSum, List.length_nil] at ihs
            simp only [List.length_cons, List.length_reverse]
            omega
        · rw [if_neg h2]
          obtain ⟨ihc, ihs⟩ := ih rest (c :: cur)
          constructor
          · simp only [List.length_cons]
            omega
          · simp only [List.length_cons] at ihs ⊢
            omega

lemma extend_fold_count :
    ∀ (lines : List Str) (init : List Str),
      (lines.foldl (fun segs raw_line => segs ++ split_line raw_line) init).length ≤
        init.length + 8 * charSum lines + lines.length := by
  intro lines
  induction lines with
  | nil => intro init; simp [charSum]
  | cons l ls ih =>
    intro init
    simp only [List.foldl_cons]
    have h1 := ih (init ++ split_line l)
    have h2 := split_line_count l
    simp only [List.length_append] at h1
    simp only [charSum, List.map_cons, List.sum_cons, List.length_cons]
    simp only [charSum] at h1
    omega

lemma extend_fold_mem :
    ∀ (lines : List Str) (init : List Str) (seg : Str),
      seg ∈ lines.foldl (fun segs raw_line => segs ++ split_line raw_line) init →
        seg ∈ init ∨ ∃ l ∈ lines, seg ∈ split_line l := by
  intro lines
  induction lines with
  | nil => intro init seg h; exact Or.inl h
  | cons l ls ih =>
    intro init seg h
    simp only [List.foldl_cons] at h
    rcases ih (init ++ split_line l) seg h with h1 | ⟨l', hl', hseg⟩
    · rcases List.mem_append.mp h1 with h2 | h2
      · exact Or.inl h2
      · exact Or.inr ⟨l, by simp, h2⟩
    · exact Or.inr ⟨l', List.mem_cons_of_mem _ hl', hseg⟩

lemma quoteLine_length (seg : Str) : (quoteLine seg).length = 2 + seg.length := by
  unfold quoteLine
  by_cases h : seg ≠ []
  · rw [if_pos h]
    simp [str]
    omega
  · rw [if_neg h]
    push_neg at h
    subst h
    rfl

lemma format_step_safe (idx : Nat) (hd : (natStr (idx + 1)).length ≤ 10)
    (msgs : List Str) (part : Nat) (cur : List Str) (seg : Str)
    (hseg : seg.length ≤ 1900)
    (hmsgs : ∀ m ∈ msgs, m.length ≤ 2000)
    (hcur : (joinNL cur).length ≤ 2000)
    (hcurne : cur ≠ [])
    (hpart : part + 1 < 10 ^ 11) :
    (∀ m ∈ (format_step idx (msgs, part, cur) seg).1, m.length ≤ 2000) ∧
    (joinNL (format_step idx (msgs, part, cur) seg).2.2).length ≤ 2000 ∧
    (format_step idx (msgs, part, cur) seg).2.2 ≠ [] ∧
    (format_step idx (msgs, part, cur) seg).2.1 ≤ part + 1 := by
  unfold format_step
  dsimp only
  have hql : (quoteLine seg).length = 2 + seg.length := quoteLine_length seg
  by_cases hcand : DISCORD_MESSAGE_LIMIT < (joinNL (cur ++ [quoteLine seg])).length
  · rw [if_pos hcand]
    have hp11 : (natStr (part + 1)).length ≤ 11 :=
      natStr_length_le _ 11 hpart (by norm_num)
    have hh1 : (joinNL (format_header idx (part + 1))).length ≤ 46 := by
      rw [joinNL_format_header_length, if_neg (by omega : ¬(part + 1 = 0))]
      omega
    have hcand1 : ¬(DISCORD_MESSAGE_LIMIT <
        (joinNL (format_header idx (part + 1) ++ [quoteLine seg])).length) := by
      rw [joinNL_append_singleton_length _ _ (format_header_ne_nil _ _)]
      show ¬(2000 < _)
      omega
    rw [if_neg hcand1]
    refine ⟨?_, ?_, by simp, by simp⟩
    · intro m hm
      rcases List.mem_append.mp hm with h1 | h2
      · exact hmsgs m h1
      · rw [List.mem_singleton.mp h2]
        exact hcur
    · rw [joinNL_append_singleton_length _ _ (format_header_ne_nil _ _)]
      show _ ≤ 2000
      omega
  · rw [if_neg hcand]
    refine ⟨hmsgs, ?_, by simp [hcurne], by dsimp only; omega⟩
    exact Nat.le_of_not_lt hcand

lemma format_fold_safe (idx : Nat) (hd : (natStr (idx + 1)).length ≤ 10) (T : Nat)
    (hT : T < 10 ^ 11) :
    ∀ (segs : List Str) (msgs : List Str) (part : Nat) (cur : List Str) (n : Nat),
      (∀ seg ∈ segs, seg.length ≤ 1900) →
      (∀ m ∈ msgs, m.length ≤ 2000) →
      (joinNL cur).length ≤ 2000 →
      cur ≠ [] →
      part ≤ n →
      n + segs.length ≤ T →
      (∀ m ∈ (segs.foldl (format_step idx) (msgs, part, cur)).1, m.length ≤ 2000) ∧
      (joinNL (segs.foldl (format_step idx) (msgs, part, cur)).2.2).length ≤ 2000 := by
  intro segs
  induction segs with
  | nil =>
    intro msgs part cur n _ hmsgs hcur _ _ _
    exact ⟨hmsgs, hcur⟩
  | cons seg rest ih =>
    intro msgs part cur n hsegs hmsgs hcur hcurne hpn hnT
    simp only [List.foldl_cons]
    obtain ⟨h1, h2, h3, h4⟩ := format_step_safe idx hd msgs part cur seg
      (hsegs seg (by simp)) hmsgs hcur hcurne
      (by simp only [List.length_cons] at hnT; omega)
    rcases hst : format_step idx (msgs, part, cur) seg with ⟨msgs1, part1, cur1⟩
    rw [hst] at h1 h2 h3 h4
    exact ih msgs1 part1 cur1 (n + 1)
      (fun s hs => hsegs s (List.mem_cons_of_mem _ hs)) h1 h2 h3
      (by dsimp only at h4; omega)
      (by simp only [List.length_cons] at hnT; omega)

/-- C6 (amended): for every chunk index below `10^9` and every chunk of at
most `10^9` characters, every message produced by `format_chunk_messages` has
length at most `DISCORD_MESSAGE_LIMIT` (2000 characters). -/
theorem C6_message_limit (index : Nat) (chunk : Str)
    (hidx : index < 10 ^ 9) (hlen : chunk.length ≤ 10 ^ 9) :
    ∀ m ∈ format_chunk_messages index chunk, m.length ≤ 2000 := by
  have p9 : (10 : Nat) ^ 9 = 1000000000 := by norm_num
  rw [p9] at hidx hlen
  unfold format_chunk_messages
  dsimp only
  set segments0 :=
    (pySplitlines chunk).foldl (fun segs raw_line => segs ++ split_line raw_line) []
    with hs0
  set segments := if segments0 = [] then [([] : Str)] else segments0 with hsegs
  have hmem : ∀ seg ∈ segments, seg.length ≤ 1900 := by
    intro seg hseg
    rw [hsegs] at hseg
    by_cases h0 : segments0 = []
    · rw [if_pos h0] at hseg
      simp at hseg
      simp [hseg]
    · rw [if_neg h0] at hseg
      rcases extend_fold_mem (pySplitlines chunk) [] seg (hs0 ▸ hseg) with h | ⟨l, -, hsl⟩
      · simp at h
      · exact split_line_le l seg hsl
  have hcount : segments.length ≤ 9 * chunk.length + 2 := by
    have h1 := extend_fold_count (pySplitlines chunk) []
    have h2 := pySplitlinesAux_bounds chunk.length chunk []
    rw [hsegs]
    by_cases h0 : segments0 = []
    · rw [if_pos h0]
      simp
    · rw [if_neg h0, hs0]
      simp only [List.length_nil, List.length_reverse] at h1
      show ((pySplitlines chunk).foldl (fun segs raw_line => segs ++ split_line raw_line)
        []).length ≤ _
      have h2a : (pySplitlines chunk).length ≤ chunk.length + 1 := h2.1
      have h2b : charSum (pySplitlines chunk) ≤ chunk.length + 0 := h2.2
      omega
  have hd : (natStr (index + 1)).length ≤ 10 := by
    refine natStr_length_le _ 10 ?_ (by norm_num)
    have p10 : (10 : Nat) ^ 10 = 10000000000 := by norm_num
    omega
  have hcur0 : (joinNL (format_header index 0)).length ≤ 2000 := by
    rw [joinNL_format_header_length]
    simp
    omega
  have hmain := format_fold_safe index hd (9 * 1000000000 + 2) (by norm_num)
    segments [] 0 (format_header index 0) 0 hmem (by simp) hcur0
    (format_header_ne_nil _ _) (le_refl 0) (by omega)
  obtain ⟨hmsgs, hcurf⟩ := hmain
  intro m hm
  rcases List.mem_append.mp hm with h | h
  · exact hmsgs m h
  · rw [List.mem_singleton.mp h]
    exact hcurf

theorem C6_witness :
    ((0 : Nat) < 10 ^ 9 ∧ (str "hello world").length ≤ 10 ^ 9) ∧
      ∀ m ∈ format_chunk_messages 0 (str "hello world"), m.length ≤ 2000 :=
  ⟨⟨by decide, by decide⟩,
   C6_message_limit 0 (str "hello world") (by decide) (by decide)⟩

lemma toDigitsCore_length_ge :
    ∀ (f n : Nat) (ds : List Char) (k : Nat), 10 ^ k ≤ n → n + 1 ≤ f →
      k + 1 + ds.length ≤ (Nat.toDigitsCore 10 f n ds).length := by
  intro f
  induction f with
  | zero => intro n ds k _ hf; omega
  | succ g ih =>
    intro n ds k hk hf
    unfold Nat.toDigitsCore
    by_cases hz : n / 10 = 0
    · rw [if_pos hz]
      have hn9 : n ≤ 9 := by omega
      have hk0 : k = 0 := by
        by_contra hknz
        have h10 : 10 ≤ 10 ^ k := by
          calc (10 : Nat) = 10 ^ 1 := by norm_num
          _ ≤ 10 ^ k := Nat.pow_le_pow_right (by norm_num) (by omega)
        omega
      subst hk0
      simp only [List.length_cons]
      omega
    · rw [if_neg hz]
      have hlt : n / 10 < n := Nat.div_lt_self (by omega) (by omega)
      rcases k with _ | j
      · have hrec := ih (n / 10) (Nat.digitChar (n % 10) :: ds) 0
          (by rw [pow_zero]; omega) (by omega)
        simp only [List.length_cons, pow_zero] at hrec
        omega
      · have hdiv : 10 ^ j ≤ n / 10 := by
          rw [Nat.le_div_iff_mul_le (by omega)]
          calc 10 ^ j * 10 = 10 ^ (j + 1) := by rw [pow_succ]
          _ ≤ n := hk
        have hrec := ih (n / 10) (Nat.digitChar (n % 10) :: ds) j hdiv (by omega)
        simp only [List.length_cons] at hrec
        omega

lemma natStr_length_ge (n k : Nat) (hk : 10 ^ k ≤ n) : k + 1 ≤ (natStr n).length := by
  show k + 1 ≤ (Nat.toDigits 10 n).length
  unfold Nat.toDigits
  have := toDigitsCore_length_ge (n + 1) n [] k hk (le_refl _)
  simpa using this

lemma chunksEvery_nil_str (n : Nat) : chunksEvery n ([] : Str) = [] :=
  chunksEveryAux_nil n 0

lemma format_empty_chunk_overflow (idx : Nat)
    (hd : 2000 < 12 + (natStr (idx + 1)).length) :
    ∃ m ∈ format_chunk_messages idx [], 2000 < m.length := by
  have hone : (natStr 1).length = 1 := rfl
  unfold format_chunk_messages
  dsimp only
  rw [show pySplitlines ([] : Str) = [] from rfl]
  simp only [List.foldl_nil]
  simp only [if_true]
  simp only [List.foldl_cons, List.foldl_nil]
  unfold format_step
  dsimp only
  have hcand : DISCORD_MESSAGE_LIMIT <
      (joinNL (format_header idx 0 ++ [quoteLine []])).length := by
    rw [joinNL_append_singleton_length _ _ (format_header_ne_nil _ _),
      joinNL_format_header_length]
    show 2000 < _
    simp only [if_pos rfl]
    omega
  rw [if_pos hcand]
  have hcand1 : DISCORD_MESSAGE_LIMIT <
      (joinNL (format_header idx (0 + 1) ++ [quoteLine []])).length := by
    rw [joinNL_append_singleton_length _ _ (format_header_ne_nil _ _),
      joinNL_format_header_length]
    show 2000 < _
    rw [if_neg (by omega : ¬(0 + 1 = 0))]
    omega
  rw [if_pos hcand1]
  rw [chunksEvery_nil_str]
  simp only [List.foldl_nil]
  refine ⟨joinNL (format_header idx 0), by simp, ?_⟩
  rw [joinNL_format_header_length]
  simp only [if_pos rfl]
  omega

/-- C6 as stated is false: for the chunk index `10^1989 - 1` (whose rendered
header alone exceeds the limit) and the empty chunk, the renderer emits a
message longer than 2000 characters. -/
theorem C6_counterexample :
    ∃ m ∈ format_chunk_messages (10 ^ 1989 - 1) [], 2000 < m.length := by
  apply format_empty_chunk_overflow
  have hpos : 0 < 10 ^ 1989 := Nat.pos_pow_of_pos 1989 (by norm_num)
  have heq : 10 ^ 1989 - 1 + 1 = 10 ^ 1989 := by omega
  rw [heq]
  have := natStr_length_ge (10 ^ 1989) 1989 (le_refl _)
  omega
